import Mathlib

/-!
# A reverse-Polish-notation calculator (src/main.js)

Shallow embedding of the evaluator of src/main.js: the operator table MATH_OPS, the constant
table MATH_CONSTANTS, formatMathematicalNumber and doTheMath.

## How JavaScript values are modelled

* A JavaScript number is a JSNum: NaN, the two infinities, or a finite value carried as an exact
  rational. The arithmetic of the operators on finite values is exact: the binary64 rounding of
  the result of an operator, its overflow to infinity and the sign of zero are outside the
  model. The sum inside the modulo operator, which is no result, is rounded. Constants carry
  the exact value of their binary64 number.
* Reading a literal (Number, parseFloat) and printing (toFixed, Number::toString) follow
  binary64: roundBinary64 is rounding to the nearest binary64 number, ties to even, and the
  printed digits are the shortest that read back as the number.
* Math.pow and Math.sqrt belong to the JavaScript host and have no exact counterpart on
  rationals; they are fields of Host, and every definition of the program that may reach them
  takes a Host. So is the lower case of the characters outside ASCII other than the Greek
  letters of the aliases (the Unicode tables), taken character by character.
* Strings are Lean strings, read through their list of characters.
* A thrown ParseError or MathError is the error side of Except.
-/

namespace RpnCalc

/-! ## Numbers -/

/-- JavaScript number, in exact arithmetic: NaN, +Infinity, -Infinity or a finite rational. -/
inductive JSNum where
  | nan
  | posInf
  | negInf
  | fin (q : ℚ)
  deriving DecidableEq

namespace JSNum

/-- Unary minus. -/
def neg : JSNum → JSNum
  | nan => nan
  | posInf => negInf
  | negInf => posInf
  | fin q => fin (-q)

/-- Infinity carrying the sign of a non-zero rational. -/
def infWithSign (q : ℚ) : JSNum := if 0 < q then posInf else negInf

/-- JavaScript a + b. -/
def add : JSNum → JSNum → JSNum
  | nan, _ => nan
  | _, nan => nan
  | posInf, negInf => nan
  | negInf, posInf => nan
  | posInf, _ => posInf
  | negInf, _ => negInf
  | fin _, posInf => posInf
  | fin _, negInf => negInf
  | fin p, fin q => fin (p + q)

/-- JavaScript a - b. -/
def sub (a b : JSNum) : JSNum := add a (neg b)

/-- JavaScript a * b: an infinity times zero is NaN. -/
def mul : JSNum → JSNum → JSNum
  | nan, _ => nan
  | _, nan => nan
  | posInf, posInf => posInf
  | posInf, negInf => negInf
  | negInf, posInf => negInf
  | negInf, negInf => posInf
  | posInf, fin q => if q = 0 then nan else infWithSign q
  | negInf, fin q => if q = 0 then nan else infWithSign (-q)
  | fin p, posInf => if p = 0 then nan else infWithSign p
  | fin p, negInf => if p = 0 then nan else infWithSign (-p)
  | fin p, fin q => fin (p * q)

/-- JavaScript a / b (the zero divisor is taken as +0). -/
def div : JSNum → JSNum → JSNum
  | nan, _ => nan
  | _, nan => nan
  | posInf, posInf => nan
  | posInf, negInf => nan
  | negInf, posInf => nan
  | negInf, negInf => nan
  | posInf, fin q => if q < 0 then negInf else posInf
  | negInf, fin q => if q < 0 then posInf else negInf
  | fin _, posInf => fin 0
  | fin _, negInf => fin 0
  | fin p, fin q => if q = 0 then (if p = 0 then nan else infWithSign p) else fin (p / q)

/-- Integer part of a rational, rounding toward zero. -/
def truncate (x : ℚ) : ℤ := Int.tdiv x.num (x.den : ℤ)

/-- JavaScript a % b: the remainder of the truncating division, its sign that of a. -/
def rem : JSNum → JSNum → JSNum
  | nan, _ => nan
  | _, nan => nan
  | posInf, _ => nan
  | negInf, _ => nan
  | fin p, posInf => fin p
  | fin p, negInf => fin p
  | fin p, fin q => if q = 0 then nan else fin (p - q * (truncate (p / q) : ℚ))

/-- Math.abs. -/
def abs : JSNum → JSNum
  | nan => nan
  | posInf => posInf
  | negInf => posInf
  | fin q => fin |q|

/-- JavaScript a == b and a === b on two numbers: NaN equals nothing. -/
def eq : JSNum → JSNum → Bool
  | nan, _ => false
  | _, nan => false
  | a, b => decide (a = b)

/-- JavaScript a < b on two numbers: false as soon as one is NaN. -/
def lt : JSNum → JSNum → Bool
  | nan, _ => false
  | _, nan => false
  | posInf, _ => false
  | _, negInf => false
  | negInf, _ => true
  | fin _, posInf => true
  | fin p, fin q => decide (p < q)

/-- JavaScript a > b. -/
def gt (a b : JSNum) : Bool := lt b a

/-- JavaScript a <= b: a < b or a == b, false as soon as one is NaN. -/
def le (a b : JSNum) : Bool := lt a b || eq a b

/-- JavaScript a >= b. -/
def ge (a b : JSNum) : Bool := le b a

/-- Number.isSafeInteger: a finite integer of magnitude at most 2^53 - 1. -/
def isSafeInteger : JSNum → Bool
  | fin q => decide (q.den = 1) && decide (q.num.natAbs ≤ 2 ^ 53 - 1)
  | _ => false

end JSNum

/-- The part of the JavaScript host that exact rationals cannot compute. -/
structure Host where
  /-- Math.pow. -/
  pow : JSNum → JSNum → JSNum
  /-- Math.sqrt. -/
  sqrt : JSNum → JSNum
  /-- The lower-case form of a character outside ASCII, in String.prototype.toLowerCase. -/
  lowerNonAscii : Char → List Char

/-- A host to evaluate examples with: a finite base to a whole non-negative power and the root
of a perfect square are exact, every other power or root is left as NaN, and the characters
left to the host are their own lower case. -/
def Host.exact : Host where
  pow := fun a b =>
    match a, b with
    | JSNum.fin p, JSNum.fin q =>
      if q.den = 1 ∧ 0 ≤ q.num then JSNum.fin (p ^ q.num.toNat) else JSNum.nan
    | _, _ => JSNum.nan
  sqrt := fun a =>
    match a with
    | JSNum.fin p =>
      if 0 ≤ p ∧ (Nat.sqrt p.num.natAbs) ^ 2 = p.num.natAbs ∧ (Nat.sqrt p.den) ^ 2 = p.den
      then JSNum.fin ((Nat.sqrt p.num.natAbs : ℚ) / (Nat.sqrt p.den : ℚ)) else JSNum.nan
    | _ => JSNum.nan
  lowerNonAscii := fun c => [c]

/-! ## Errors -/

/-- The two error classes of the program, each with its message. -/
inductive JSError where
  | ParseError (message : String)
  | MathError (message : String)
  deriving DecidableEq

deriving instance DecidableEq for Except

/-! ## Binary64 -/

/-- The number of binary digits of n, on fuel. -/
def bitLengthAux : ℕ → ℕ → ℕ
  | 0, _ => 0
  | fuel + 1, n => if n = 0 then 0 else bitLengthAux fuel (n / 2) + 1

/-- The number of binary digits of a natural number: 0 for 0, else the L with
2^(L-1) <= n < 2^L. -/
def bitLength (n : ℕ) : ℕ := bitLengthAux n n

/-- The binary exponent of a rational other than 0: the e with 2^e <= |q| < 2^(e+1). The
difference of the bit lengths of numerator and denominator is e or e + 1. -/
def binaryExponent (q : ℚ) : ℤ :=
  if (2 : ℚ) ^ ((bitLength q.num.natAbs : ℤ) - (bitLength q.den : ℤ)) ≤ |q|
  then (bitLength q.num.natAbs : ℤ) - (bitLength q.den : ℤ)
  else (bitLength q.num.natAbs : ℤ) - (bitLength q.den : ℤ) - 1

/-- The exponent of the spacing of the binary64 numbers at q: e - 52 for the binary exponent e
of q, and -1074 below 2^-1022, where the numbers are subnormal. -/
def quantumExponent (q : ℚ) : ℤ := max (binaryExponent q) (-1022) - 52

/-- The spacing of the binary64 numbers at q. -/
def quantum (q : ℚ) : ℚ := 2 ^ quantumExponent q

/-- The integer nearest to x, the even one of the two when x is half way. -/
def roundHalfEven (x : ℚ) : ℤ :=
  if x - ⌊x⌋ < 1 / 2 then ⌊x⌋
  else if 1 / 2 < x - ⌊x⌋ then ⌊x⌋ + 1
  else if ⌊x⌋ % 2 = 0 then ⌊x⌋
  else ⌊x⌋ + 1

/-- The Number value of a rational: the nearest multiple of the spacing, ties to the even
multiple, and an infinity when that reaches 2^1024. -/
def roundBinary64 (q : ℚ) : JSNum :=
  if q = 0 then JSNum.fin 0
  else if (2 : ℚ) ^ 1024 ≤ |(roundHalfEven (q / quantum q) : ℚ) * quantum q|
  then (if 0 < q then JSNum.posInf else JSNum.negInf)
  else JSNum.fin ((roundHalfEven (q / quantum q) : ℚ) * quantum q)

/-- The rational is a binary64 number: rounding leaves it as it is. -/
def isBinary64 (q : ℚ) : Prop := roundBinary64 q = JSNum.fin q

instance (q : ℚ) : Decidable (isBinary64 q) :=
  inferInstanceAs (Decidable (roundBinary64 q = JSNum.fin q))

/-- The Number value of a mathematical value. -/
def JSNum.toBinary64 : JSNum → JSNum
  | JSNum.fin q => roundBinary64 q
  | other => other

/-! ## Reading and printing numbers -/

/-- Value of a run of decimal digits, most significant first. -/
def digitsValue (cs : List Char) : ℕ :=
  cs.foldl (fun acc c => 10 * acc + (c.toNat - 48)) 0

/-- The regular expression /^[0-9\.]*$/: every character is a digit or a dot. -/
def isNumberToken (token : String) : Bool :=
  token.data.all (fun c => c.isDigit || c == '.')

/-- JavaScript Number(token) on the strings doTheMath passes to it, which are made of digits and
dots: the empty string is 0; digits with at most one dot and at least one digit are a decimal
literal, read as the Number value of its decimal value; anything else, like "." or "1.2.3", is
NaN. A string with another character is outside this fragment and is answered with NaN. -/
def Number (token : String) : JSNum :=
  if token.data = [] then JSNum.fin 0
  else if isNumberToken token = false then JSNum.nan
  else
    let whole := token.data.takeWhile (fun c => c != '.')
    match token.data.dropWhile (fun c => c != '.') with
    | [] => roundBinary64 (digitsValue whole)
    | _ :: frac =>
      if frac.all Char.isDigit && (!whole.isEmpty || !frac.isEmpty)
      then roundBinary64 ((digitsValue whole : ℚ) + (digitsValue frac : ℚ) / 10 ^ frac.length)
      else JSNum.nan

/-- Decimal digits with the zeros at the end removed. -/
def stripTrailingZeros (ds : List Char) : List Char :=
  (ds.reverse.dropWhile (fun c => c == '0')).reverse

/-- Number::toString of the positive number with the significant digits s (k of them, no
trailing zero) and the decimal point after n digits, so the value is 0.s times 10^n: plain
digits for a whole number, a decimal point inside or zeros after "0." for n above -6, and
exponential form otherwise. -/
def digitsToString (s : List Char) (n : ℤ) : String :=
  let k : ℤ := s.length
  if k ≤ n ∧ n ≤ 21 then String.mk (s ++ List.replicate (n - k).toNat '0')
  else if 0 < n ∧ n ≤ 21 then String.mk (s.take n.toNat ++ '.' :: s.drop n.toNat)
  else if -6 < n ∧ n ≤ 0 then String.mk ('0' :: '.' :: List.replicate (-n).toNat '0' ++ s)
  else
    let e : ℤ := n - 1
    let expo : String := (if e < 0 then "-" else "+") ++ toString e.natAbs
    if s.length = 1 then String.mk s ++ "e" ++ expo
    else String.mk (s.take 1 ++ '.' :: s.drop 1) ++ "e" ++ expo

/-- The decimal exponent of a positive rational: the e with 10^(e-1) <= y < 10^e. The
difference of the digit counts of numerator and denominator is e or e - 1. -/
def decimalExponent (y : ℚ) : ℤ :=
  if y < 10 ^ (((Nat.toDigits 10 y.num.natAbs).length : ℤ) - ((Nat.toDigits 10 y.den).length : ℤ))
  then ((Nat.toDigits 10 y.num.natAbs).length : ℤ) - ((Nat.toDigits 10 y.den).length : ℤ)
  else ((Nat.toDigits 10 y.num.natAbs).length : ℤ) - ((Nat.toDigits 10 y.den).length : ℤ) + 1

/-- The decimal of k digits that reads back as the positive binary64 number y, if there is one,
as a pair (s, p) for s times 10^p. The two decimals of k digits next to y are tried, the one
below and the one above: when both read back as y the nearer one is taken, and the even one
when they are as near. -/
def shortestCandidate (y : ℚ) (k : ℕ) : Option (ℕ × ℤ) :=
  let p : ℤ := decimalExponent y - k
  let lo : ℕ := ⌊y / 10 ^ p⌋.toNat
  if roundBinary64 ((lo : ℚ) * 10 ^ p) = JSNum.fin y then
    if roundBinary64 (((lo + 1 : ℕ) : ℚ) * 10 ^ p) = JSNum.fin y then
      if y - (lo : ℚ) * 10 ^ p < ((lo + 1 : ℕ) : ℚ) * 10 ^ p - y then some (lo, p)
      else if ((lo + 1 : ℕ) : ℚ) * 10 ^ p - y < y - (lo : ℚ) * 10 ^ p then some (lo + 1, p)
      else if lo % 2 = 0 then some (lo, p)
      else some (lo + 1, p)
    else some (lo, p)
  else if roundBinary64 (((lo + 1 : ℕ) : ℚ) * 10 ^ p) = JSNum.fin y then some (lo + 1, p)
  else none

/-- The exact decimal of a rational whose denominator is a power of two, 2^b: the numerator
times 5^b, times 10^-b. -/
def exactDecimal (y : ℚ) : ℕ × ℤ :=
  (y.num.natAbs * 5 ^ (bitLength y.den - 1), -((bitLength y.den - 1 : ℕ) : ℤ))

/-- The search for the least number of digits, from k digits on: the first k with a decimal
that reads back as y. The search goes up to 17 digits, which is enough for every binary64
number; where it ends the exact decimal is at hand. -/
def shortestSearch (y : ℚ) : ℕ → ℕ → ℕ × ℤ
  | 0, _ => exactDecimal y
  | fuel + 1, k =>
    match shortestCandidate y k with
    | some found => found
    | none => shortestSearch y fuel (k + 1)

/-- The text of the decimal s times 10^p, for a positive integer s, as Number::toString lays
digits out. -/
def decimalToString (s : ℕ) (p : ℤ) : String :=
  digitsToString (stripTrailingZeros (Nat.toDigits 10 s)) ((Nat.toDigits 10 s).length + p)

/-- Number::toString of a positive binary64 number: the shortest decimal that reads back as the
number. -/
def positiveToString (y : ℚ) : String :=
  decimalToString (shortestSearch y 17 1).1 (shortestSearch y 17 1).2

/-- Number::toString. -/
def numberToString : JSNum → String
  | JSNum.nan => "NaN"
  | JSNum.posInf => "Infinity"
  | JSNum.negInf => "-Infinity"
  | JSNum.fin q =>
    if q = 0 then "0"
    else if q < 0 then "-" ++ positiveToString (-q)
    else positiveToString q

/-- Number(value.toFixed(8)) for a finite value of magnitude below 1e21: toFixed takes the
integer m nearest to the magnitude times 10^8 (the larger one on a tie) and writes m / 10^8 with
the sign of the value; Number reads the text as the Number value of that decimal. -/
def fixed8Value (q : ℚ) : JSNum :=
  if q < 0 then roundBinary64 (-((⌊|q| * 10 ^ 8 + 1 / 2⌋.toNat : ℕ) : ℚ) / 10 ^ 8)
  else roundBinary64 (((⌊|q| * 10 ^ 8 + 1 / 2⌋.toNat : ℕ) : ℚ) / 10 ^ 8)

/-- The expression Number(value.toFixed(8)).toString(). toFixed(8) answers String(value) for a
value that is not finite or has magnitude 1e21 or more, which Number reads back as the value;
below 1e21 the value is rounded to 8 fractional digits first. The digits are computed: the host
is not consulted. -/
def fixed8ToString (_h : Host) : JSNum → String
  | JSNum.nan => "NaN"
  | JSNum.posInf => "Infinity"
  | JSNum.negInf => "-Infinity"
  | JSNum.fin q =>
    if (10 : ℚ) ^ 21 ≤ |q| then numberToString (JSNum.fin q)
    else numberToString (fixed8Value q)

/-! ## The constant table -/

/-- MathConstant(name, symbols, value). -/
structure MathConstant where
  name : String
  symbols : List String
  value : JSNum
  deriving DecidableEq

/-- MATH_CONSTANTS. Math.PI, 2*Math.PI, (1 + Math.sqrt(5)) / 2 and Math.E are given by the exact
value of their binary64 number. -/
def MATH_CONSTANTS : List MathConstant :=
  [ ⟨"π", ["pi", "π"], JSNum.fin (884279719003555 / 2 ^ 48)⟩,
    ⟨"τ", ["tau", "τ"], JSNum.fin (884279719003555 / 2 ^ 47)⟩,
    ⟨"φ", ["phi", "φ"], JSNum.fin (910872158600853 / 2 ^ 49)⟩,
    ⟨"∞", ["infinity", "∞"], JSNum.posInf⟩,
    ⟨"e", ["e"], JSNum.fin (6121026514868073 / 2 ^ 51)⟩ ]

/-- Rendering of formatMathematicalNumber: the name of the first constant equal to the value,
else "-" and the name of the first constant whose negation equals the value, else the value
rounded to 8 fractional digits and printed. -/
def formatMathematicalNumber (h : Host) (value : JSNum) : String :=
  match MATH_CONSTANTS.find? (fun constant => JSNum.eq value constant.value) with
  | some constant => constant.name
  | none =>
    match MATH_CONSTANTS.find? (fun constant => JSNum.eq value (JSNum.neg constant.value)) with
    | some constant => "-" ++ constant.name
    | none => fixed8ToString h value

/-! ## The operator table -/

/-- The symbol field of a MathOp: one string, or an array of strings. -/
inductive Symbol where
  | str (s : String)
  | arr (ss : List String)

/-- The strings listed in a symbol field. -/
def Symbol.aliases : Symbol → List String
  | Symbol.str s => [s]
  | Symbol.arr ss => ss

/-- The lookup test of doTheMath,
(Array.isArray(i.symbol) && i.symbol.includes(token)) || i.symbol == token.
On an array the loose comparison i.symbol == token converts the array to a string, its elements
joined by commas, so the joined list matches too. -/
def Symbol.isMatch (token : String) : Symbol → Bool
  | Symbol.str s => s == token
  | Symbol.arr ss => ss.contains token || ",".intercalate ss == token

/-- MathOp(opName, symbol, args, func). The function receives the spread argument list. -/
structure MathOp where
  opName : String
  symbol : Symbol
  args : ℕ
  func : List JSNum → Except JSError JSNum

/-- A function of one parameter applied to a spread list. A parameter without argument would be
undefined, read as NaN; doTheMath always passes as many arguments as the operator takes. -/
def unary (f : JSNum → Except JSError JSNum) (xs : List JSNum) : Except JSError JSNum :=
  f (xs.getD 0 JSNum.nan)

/-- A function of two parameters applied to a spread list. -/
def binary (f : JSNum → JSNum → Except JSError JSNum) (xs : List JSNum) :
    Except JSError JSNum :=
  f (xs.getD 0 JSNum.nan) (xs.getD 1 JSNum.nan)

/-- The number 1 when the test holds, else 0. -/
def oneIf (b : Bool) : JSNum := if b then JSNum.fin 1 else JSNum.fin 0

/-- The loop of the factorial: while (step > 0) { result *= step; step-- }, on a finite step. -/
def factorialLoop (result : JSNum) (step : ℚ) : JSNum :=
  if 0 < step then factorialLoop (result.mul (JSNum.fin step)) (step - 1) else result
termination_by ⌈step⌉.toNat
decreasing_by
  have h1 : ⌈step - 1⌉ = ⌈step⌉ - 1 := Int.ceil_sub_one step
  have h2 : 0 < ⌈step⌉ := Int.ceil_pos.mpr (by assumption)
  omega

/-- Function of the multiplication operator. -/
def multiplication (h : Host) (a b : JSNum) : Except JSError JSNum :=
  if (JSNum.eq a JSNum.posInf && JSNum.eq b (JSNum.fin 0))
      || (JSNum.eq a (JSNum.fin 0) && JSNum.eq b JSNum.posInf)
  then .error (.MathError ("cannot multiply " ++ formatMathematicalNumber h a ++ " by "
    ++ formatMathematicalNumber h b))
  else .ok (a.mul b)

/-- Function of the division operator. -/
def division (a b : JSNum) : Except JSError JSNum :=
  if JSNum.eq b (JSNum.fin 0) then .error (.MathError "cannot divide by 0")
  else .ok (a.div b)

/-- Function of the factorial operator. Number.isSafeInteger is false on a value that is not
finite, so such a value takes the error branch of the guard; past the guard the loop runs on a
rational. -/
def factorial (h : Host) : JSNum → Except JSError JSNum
  | JSNum.fin q =>
    if !(JSNum.fin q).isSafeInteger || JSNum.lt (JSNum.fin q) (JSNum.fin 0)
    then .error (.MathError ("cannot find the factorial of "
      ++ formatMathematicalNumber h (JSNum.fin q)))
    else .ok (factorialLoop (JSNum.fin 1) q)
  | JSNum.nan =>
    .error (.MathError ("cannot find the factorial of " ++ formatMathematicalNumber h JSNum.nan))
  | JSNum.posInf =>
    .error (.MathError ("cannot find the factorial of "
      ++ formatMathematicalNumber h JSNum.posInf))
  | JSNum.negInf =>
    .error (.MathError ("cannot find the factorial of "
      ++ formatMathematicalNumber h JSNum.negInf))

/-- Function of the remainder operator. -/
def remainder (a b : JSNum) : Except JSError JSNum :=
  if JSNum.eq b (JSNum.fin 0) then .error (.MathError "cannot divide by 0")
  else .ok (a.rem b)

/-- Function of the modulo operator: ((a % b) + b) % b. The remainder of two binary64 numbers is
a binary64 number as it is; the sum in the middle is rounded to one. -/
def modulo (a b : JSNum) : Except JSError JSNum :=
  if JSNum.eq b (JSNum.fin 0) then .error (.MathError "cannot divide by 0")
  else .ok (((a.rem b).add b).toBinary64.rem b)

/-- Function of the root operator: Math.pow(a, 1/b). -/
def root (h : Host) (a b : JSNum) : Except JSError JSNum :=
  if JSNum.eq b (JSNum.fin 0) then .error (.MathError "cannot find a 0th root")
  else .ok (h.pow a ((JSNum.fin 1).div b))

/-- MATH_OPS, in the order of the source. -/
def MATH_OPS (h : Host) : List MathOp :=
  [ ⟨"addition", .str "+", 2, binary fun a b => .ok (a.add b)⟩,
    ⟨"subtraction", .str "-", 2, binary fun a b => .ok (a.sub b)⟩,
    ⟨"multiplication", .arr ["*", "×", "x"], 2, binary (multiplication h)⟩,
    ⟨"division", .arr ["/", "÷"], 2, binary division⟩,
    ⟨"factorial", .str "!", 1, unary (factorial h)⟩,
    ⟨"exponentiation", .arr ["^", "**"], 2, binary fun a b => .ok (h.pow a b)⟩,
    ⟨"remainder", .str "%", 2, binary remainder⟩,
    ⟨"modulo", .arr ["mod", "%%"], 2, binary modulo⟩,
    ⟨"root", .str "root", 2, binary (root h)⟩,
    ⟨"square root", .arr ["sqrt", "√"], 1, unary fun a => .ok (h.sqrt a)⟩,
    ⟨"absolute value", .arr ["|", "abs"], 1, unary fun a => .ok a.abs⟩,
    ⟨"equation", .str "=", 2, binary fun a b => .ok (oneIf (JSNum.eq a b))⟩,
    ⟨"equation", .str "!=", 2, binary fun a b => .ok (oneIf (!JSNum.eq a b))⟩,
    ⟨"comparison", .str "<", 2, binary fun a b => .ok (oneIf (JSNum.lt a b))⟩,
    ⟨"comparison", .str ">", 2, binary fun a b => .ok (oneIf (JSNum.gt a b))⟩,
    ⟨"comparison", .str "<=", 2, binary fun a b => .ok (oneIf (JSNum.le a b))⟩,
    ⟨"comparison", .str ">=", 2, binary fun a b => .ok (oneIf (JSNum.ge a b))⟩ ]

/-! ## The evaluator -/

/-- The split of input.split(/ /g): the pieces between single spaces, empty pieces kept. -/
def splitSpaces : List Char → List (List Char)
  | [] => [[]]
  | c :: cs =>
    if c = ' ' then [] :: splitSpaces cs
    else
      match splitSpaces cs with
      | [] => [[c]]
      | t :: ts => (c :: t) :: ts

/-- The tokens of an input. -/
def tokenize (input : String) : List String :=
  (splitSpaces input.data).map String.mk

/-- The sign test: a token longer than one character that starts with "-". -/
def hasSign (char : String) : Bool :=
  match char.data with
  | c :: _ :: _ => c == '-'
  | _ => false

/-- The token after the sign, if any, has been sliced off. -/
def stripSign (char : String) : String :=
  if hasSign char then String.mk (char.data.drop 1) else char

/-- The factor of a token: -1 behind a sign, else 1. -/
def signFactor (char : String) : JSNum :=
  if hasSign char then JSNum.fin (-1) else JSNum.fin 1

/-- MATH_OPS.find(...) on a token. -/
def findOp (h : Host) (token : String) : Option MathOp :=
  (MATH_OPS h).find? (fun i => i.symbol.isMatch token)

/-- MATH_CONSTANTS.find(...) on a token. -/
def findConstant (token : String) : Option MathConstant :=
  MATH_CONSTANTS.find? (fun i => i.symbols.contains token)

/-- The loop for (var i=0;i<args;i++) output.pop(). -/
def popN : ℕ → List JSNum → List JSNum
  | 0, output => output
  | n + 1, output => popN n output.dropLast

/-- The operator branch of doTheMath, once the operator is found. -/
def applyOp (thisOp : MathOp) (output : List JSNum) : Except JSError (List JSNum) :=
  if output.length < thisOp.args
  then .error (.MathError ("cannot perform " ++ thisOp.opName ++ " operation on "
    ++ toString output.length ++ " values"))
  else
    match thisOp.func (output.drop (output.length - thisOp.args)) with
    | .error e => .error e
    | .ok newNum => .ok (popN thisOp.args output ++ [newNum])

/-- One turn of the loop of doTheMath on the token char, from the stack output. -/
def processToken (h : Host) (output : List JSNum) (char : String) :
    Except JSError (List JSNum) :=
  let token := stripSign char
  let factor := signFactor char
  if isNumberToken token then .ok (output ++ [(Number token).mul factor])
  else
    match findOp h token with
    | some thisOp => applyOp thisOp output
    | none =>
      match findConstant token with
      | some thisConst => .ok (output ++ [thisConst.value.mul factor])
      | none => .error (.ParseError ("bad token " ++ token))

/-- The loop of doTheMath over a list of tokens, from a given stack. -/
def runTokens (h : Host) : List JSNum → List String → Except JSError (List JSNum)
  | output, [] => .ok output
  | output, char :: rest =>
    match processToken h output char with
    | .error e => .error e
    | .ok next => runTokens h next rest

/-- The function doTheMath. -/
def doTheMath (h : Host) (input : String) : Except JSError (List JSNum) :=
  runTokens h [] (tokenize input)

/-! ## The display -/

/-- The characters String.prototype.trim removes: white space and line terminators. -/
def isTrimChar (c : Char) : Bool :=
  [0x09, 0x0A, 0x0B, 0x0C, 0x0D, 0x20, 0xA0, 0x1680, 0x2000, 0x2001, 0x2002, 0x2003, 0x2004,
    0x2005, 0x2006, 0x2007, 0x2008, 0x2009, 0x200A, 0x2028, 0x2029, 0x202F, 0x205F, 0x3000,
    0xFEFF].contains c.toNat

/-- String.prototype.trim. -/
def trim (s : String) : String :=
  String.mk ((s.data.dropWhile isTrimChar).reverse.dropWhile isTrimChar).reverse

/-- The lower case of one character: A to Z become a to z and the rest of ASCII is unchanged;
the Greek letters of the aliases, capital or small, become the small letter; any other
character is left to the host. -/
def lowerChar (h : Host) (c : Char) : List Char :=
  if c.toNat < 128 then [c.toLower]
  else if c = 'Π' ∨ c = 'π' then ['π']
  else if c = 'Τ' ∨ c = 'τ' then ['τ']
  else if c = 'Φ' ∨ c = 'φ' then ['φ']
  else h.lowerNonAscii c

/-- String.prototype.toLowerCase, character by character. -/
def toLowerCase (h : Host) (s : String) : String :=
  String.mk (s.data.flatMap (lowerChar h))

/-- The name field of the two error classes: class ParseError has name "SyntaxError". -/
def JSError.name : JSError → String
  | JSError.ParseError _ => "SyntaxError"
  | JSError.MathError _ => "MathError"

/-- The message of an error. -/
def JSError.message : JSError → String
  | JSError.ParseError m => m
  | JSError.MathError m => m

/-- Error.prototype.toString: the name, ": " and the message, or the one that is not empty. -/
def JSError.toString (e : JSError) : String :=
  if e.name = "" then e.message
  else if e.message = "" then e.name
  else e.name ++ ": " ++ e.message

/-- The text calcAndDisplay writes into the last answer, for the content of the input field:
the formatted values of the stack joined by ", ", or e.toString() of the error caught. -/
def calcAndDisplay (h : Host) (inputValue : String) : String :=
  match doTheMath h (toLowerCase h (trim inputValue)) with
  | .ok output => ", ".intercalate (output.map (formatMathematicalNumber h))
  | .error e => e.toString

/-- The decimal value of the literal that parseFloat finds behind the sign: whole digits, an
optional dot and fraction digits, an optional exponent of e, a sign and digits; NaN without any
digit. What follows the longest such start of the string is ignored. -/
def parseUnsigned (cs : List Char) : JSNum :=
  let whole := cs.takeWhile Char.isDigit
  let rest := cs.dropWhile Char.isDigit
  let frac := match rest with
    | '.' :: r => r.takeWhile Char.isDigit
    | _ => []
  let rest2 := match rest with
    | '.' :: r => r.dropWhile Char.isDigit
    | _ => rest
  let expo : ℤ := match rest2 with
    | e :: '-' :: r => if e = 'e' ∨ e = 'E' then -(digitsValue (r.takeWhile Char.isDigit) : ℤ) else 0
    | e :: '+' :: r => if e = 'e' ∨ e = 'E' then (digitsValue (r.takeWhile Char.isDigit) : ℤ) else 0
    | e :: r => if e = 'e' ∨ e = 'E' then (digitsValue (r.takeWhile Char.isDigit) : ℤ) else 0
    | [] => 0
  if whole.isEmpty && frac.isEmpty then JSNum.nan
  else JSNum.fin (((digitsValue whole : ℚ) + (digitsValue frac : ℚ) / 10 ^ frac.length)
    * 10 ^ expo)

/-- JavaScript parseFloat: white space is skipped, then a sign, then "Infinity" or a decimal
literal, read as the Number value of its decimal value. -/
def parseFloat (s : String) : JSNum :=
  match s.data.dropWhile isTrimChar with
  | '-' :: cs =>
    if "Infinity".data.isPrefixOf cs then JSNum.negInf else (parseUnsigned cs).toBinary64.neg
  | '+' :: cs =>
    if "Infinity".data.isPrefixOf cs then JSNum.posInf else (parseUnsigned cs).toBinary64
  | cs =>
    if "Infinity".data.isPrefixOf cs then JSNum.posInf else (parseUnsigned cs).toBinary64

/-! ## Notions of the specification -/

/-- The pairs of a lower-case ASCII letter and its upper case. -/
def asciiCasePairs : List (Char × Char) :=
  "abcdefghijklmnopqrstuvwxyz".data.zip "ABCDEFGHIJKLMNOPQRSTUVWXYZ".data

/-- The pairs of a Greek letter of the aliases and its upper case. -/
def greekCasePairs : List (Char × Char) :=
  [('π', 'Π'), ('τ', 'Τ'), ('φ', 'Φ')]

/-- Two pairs of a letter and its Unicode upper case whose lower case is another letter: the
dotless ı has the upper case I, and the pi symbol ϖ has the upper case Π. -/
def strayCasePairs : List (Char × Char) :=
  [('ı', 'I'), ('ϖ', 'Π')]

/-- The second text is the first with some of its characters replaced along the relation. -/
def variantBy (R : Char → Char → Prop) : List Char → List Char → Prop
  | [], [] => True
  | c :: cs, d :: ds => (d = c ∨ R c d) ∧ variantBy R cs ds
  | _, _ => False

/-- The value a number token pushes. -/
def pushedValue (char : String) : JSNum :=
  (Number (stripSign char)).mul (signFactor char)

/-- The registry lookup of the specification: the first operator of the table that lists the
token among its aliases. -/
def opOfAlias (h : Host) (token : String) : Option MathOp :=
  (MATH_OPS h).find? (fun op => op.symbol.aliases.contains token)

/-- The comma-joined alias lists of the operators with several aliases, such as "mod,%%". The
lookup test of doTheMath takes each of them for its operator, though it is no alias. -/
def joinedAliasLists (h : Host) : List String :=
  (MATH_OPS h).filterMap fun op =>
    match op.symbol with
    | Symbol.arr ss => some (",".intercalate ss)
    | Symbol.str _ => none

/-- The number of number tokens: tokens that, behind their sign if any, are digits and dots. -/
def numberCount (tokens : List String) : ℕ :=
  tokens.countP (fun t => isNumberToken (stripSign t))

/-- The sum of arity - 1 over the operator tokens. -/
def arityExcess (h : Host) : List String → ℤ
  | [] => 0
  | t :: ts =>
    (if isNumberToken (stripSign t) then 0
     else
      match opOfAlias h (stripSign t) with
      | some op => (op.args : ℤ) - 1
      | none => 0) + arityExcess h ts

/-- A non-negative decimal literal: digits with at most one dot and at least one digit. -/
def isDecimalLiteral (lit : String) : Bool :=
  isNumberToken lit && lit.data.any Char.isDigit && decide (lit.data.count '.' ≤ 1)

/-- Expression tree: a number literal, or an operator, written with one of its aliases, over a
list of subtrees. -/
inductive Expr where
  | num (lit : String)
  | node (op : MathOp) (sym : String) (args : List Expr)

mutual
/-- The postfix form of a tree: the children left to right, then the operator symbol. -/
def Expr.postfixForm : Expr → List String
  | Expr.num lit => [lit]
  | Expr.node _ sym args => postfixFormList args ++ [sym]
/-- The postfix forms of a list of trees, one after the other. -/
def postfixFormList : List Expr → List String
  | [] => []
  | t :: ts => t.postfixForm ++ postfixFormList ts
end

mutual
/-- The value of a tree, bottom-up: the operator function on the values of the children. -/
def Expr.value : Expr → Except JSError JSNum
  | Expr.num lit => .ok (Number lit)
  | Expr.node op _ args =>
    match valueList args with
    | .error e => .error e
    | .ok vs => op.func vs
/-- The values of a list of trees, left to right. -/
def valueList : List Expr → Except JSError (List JSNum)
  | [] => .ok []
  | t :: ts =>
    match t.value with
    | .error e => .error e
    | .ok v =>
      match valueList ts with
      | .error e => .error e
      | .ok vs => .ok (v :: vs)
end

mutual
/-- The trees of the claim: every leaf a decimal literal, every node an operator of the table
under one of its aliases with as many children as its arity. -/
def Expr.WellFormed (h : Host) : Expr → Prop
  | Expr.num lit => isDecimalLiteral lit = true
  | Expr.node op sym args =>
    op ∈ MATH_OPS h ∧ sym ∈ op.symbol.aliases ∧ args.length = op.args ∧ wellFormedList h args
/-- Every tree of the list is well formed. -/
def wellFormedList (h : Host) : List Expr → Prop
  | [] => True
  | t :: ts => t.WellFormed h ∧ wellFormedList h ts
end

/-- The pieces joined by single spaces. -/
def joinChars : List (List Char) → List Char
  | [] => []
  | [t] => t
  | t :: u :: ts => t ++ ' ' :: joinChars (u :: ts)

/-- The tokens joined by single spaces, as an input string. -/
def joinSpaces (tokens : List String) : String :=
  String.mk (joinChars (tokens.map String.data))

/-! ## Rounding to binary64 -/

theorem bitLengthAux_zero (fuel : ℕ) : bitLengthAux fuel 0 = 0 := by
  cases fuel <;> simp [bitLengthAux]

theorem bitLengthAux_spec (fuel : ℕ) :
    ∀ n : ℕ, n ≠ 0 → n ≤ fuel →
      ∃ k, bitLengthAux fuel n = k + 1 ∧ 2 ^ k ≤ n ∧ n < 2 ^ (k + 1) := by
  induction fuel with
  | zero =>
    intro n hn hle
    exact absurd (Nat.le_zero.mp hle) hn
  | succ f ih =>
    intro n hn hle
    by_cases h2 : n / 2 = 0
    · refine ⟨0, ?_, ?_, ?_⟩
      · simp [bitLengthAux, hn, h2, bitLengthAux_zero]
      · simp only [pow_zero]
        omega
      · simp only [zero_add, pow_one]
        omega
    · obtain ⟨k, hk, hlo, hhi⟩ := ih (n / 2) h2 (by omega)
      refine ⟨k + 1, ?_, ?_, ?_⟩
      · simp [bitLengthAux, hn, hk]
      · rw [pow_succ]
        omega
      · rw [pow_succ]
        omega

theorem bitLength_spec (n : ℕ) (hn : n ≠ 0) :
    ∃ k, bitLength n = k + 1 ∧ 2 ^ k ≤ n ∧ n < 2 ^ (k + 1) :=
  bitLengthAux_spec n n hn (Nat.le_refl n)

theorem abs_eq_natAbs_div_den (q : ℚ) : |q| = (q.num.natAbs : ℚ) / (q.den : ℚ) := by
  have hq : (q.num : ℚ) / (q.den : ℚ) = q := Rat.num_div_den q
  have hden : (0 : ℚ) < (q.den : ℚ) := by exact_mod_cast q.den_pos
  conv_lhs => rw [← hq]
  rw [abs_div, abs_of_pos hden, Nat.cast_natAbs, Int.cast_abs]

theorem two_zpow_pos (e : ℤ) : (0 : ℚ) < 2 ^ e := zpow_pos (by norm_num) e

theorem binaryExponent_spec (q : ℚ) (hq : q ≠ 0) :
    (2 : ℚ) ^ binaryExponent q ≤ |q| ∧ |q| < 2 ^ (binaryExponent q + 1) := by
  have hnum : q.num.natAbs ≠ 0 := by
    simpa [Int.natAbs_eq_zero] using hq
  obtain ⟨ka, hka, halo, hahi⟩ := bitLength_spec q.num.natAbs hnum
  obtain ⟨kb, hkb, hblo, hbhi⟩ := bitLength_spec q.den q.den_nz
  have hden : (0 : ℚ) < (q.den : ℚ) := by exact_mod_cast q.den_pos
  have habs := abs_eq_natAbs_div_den q
  have halo' : (2 : ℚ) ^ (ka : ℤ) ≤ (q.num.natAbs : ℚ) := by
    rw [zpow_natCast]
    exact_mod_cast halo
  have hahi' : (q.num.natAbs : ℚ) < (2 : ℚ) ^ ((ka : ℤ) + 1) := by
    rw [show ((ka : ℤ) + 1) = ((ka + 1 : ℕ) : ℤ) by push_cast; rfl, zpow_natCast]
    exact_mod_cast hahi
  have hblo' : (2 : ℚ) ^ (kb : ℤ) ≤ (q.den : ℚ) := by
    rw [zpow_natCast]
    exact_mod_cast hblo
  have hbhi' : (q.den : ℚ) < (2 : ℚ) ^ ((kb : ℤ) + 1) := by
    rw [show ((kb : ℤ) + 1) = ((kb + 1 : ℕ) : ℤ) by push_cast; rfl, zpow_natCast]
    exact_mod_cast hbhi
  have he0 : (bitLength q.num.natAbs : ℤ) - (bitLength q.den : ℤ) = (ka : ℤ) - kb := by
    rw [hka, hkb]
    push_cast
    ring
  have hupper : |q| < 2 ^ ((ka : ℤ) - kb + 1) := by
    rw [habs, div_lt_iff₀ hden]
    calc (q.num.natAbs : ℚ) < 2 ^ ((ka : ℤ) + 1) := hahi'
      _ = 2 ^ ((ka : ℤ) - kb + 1) * 2 ^ (kb : ℤ) := by
          rw [← zpow_add₀ (by norm_num)]
          congr 1
          ring
      _ ≤ 2 ^ ((ka : ℤ) - kb + 1) * (q.den : ℚ) :=
          mul_le_mul_of_nonneg_left hblo' (two_zpow_pos _).le
  have hlower : (2 : ℚ) ^ ((ka : ℤ) - kb - 1) ≤ |q| := by
    rw [habs, le_div_iff₀ hden]
    calc (2 : ℚ) ^ ((ka : ℤ) - kb - 1) * (q.den : ℚ)
        ≤ 2 ^ ((ka : ℤ) - kb - 1) * 2 ^ ((kb : ℤ) + 1) :=
          mul_le_mul_of_nonneg_left hbhi'.le (two_zpow_pos _).le
      _ = 2 ^ (ka : ℤ) := by
          rw [← zpow_add₀ (by norm_num)]
          congr 1
          ring
      _ ≤ (q.num.natAbs : ℚ) := halo'
  unfold binaryExponent
  rw [he0]
  split
  · rename_i hle
    exact ⟨hle, hupper⟩
  · rename_i hnle
    refine ⟨hlower, ?_⟩
    rw [sub_add_cancel]
    exact not_le.mp hnle

theorem binaryExponent_unique (q : ℚ) (hq : q ≠ 0) (e : ℤ) (h1 : (2 : ℚ) ^ e ≤ |q|)
    (h2 : |q| < 2 ^ (e + 1)) : binaryExponent q = e := by
  obtain ⟨h3, h4⟩ := binaryExponent_spec q hq
  have ha : e < binaryExponent q + 1 :=
    (zpow_lt_zpow_iff_right₀ (by norm_num : (1 : ℚ) < 2)).mp (lt_of_le_of_lt h1 h4)
  have hb : binaryExponent q < e + 1 :=
    (zpow_lt_zpow_iff_right₀ (by norm_num : (1 : ℚ) < 2)).mp (lt_of_le_of_lt h3 h2)
  omega

theorem roundHalfEven_cases (x : ℚ) :
    (roundHalfEven x = ⌊x⌋ ∧ x - ⌊x⌋ ≤ 1 / 2)
      ∨ (roundHalfEven x = ⌊x⌋ + 1 ∧ 1 / 2 ≤ x - ⌊x⌋) := by
  unfold roundHalfEven
  split
  · rename_i h
    exact Or.inl ⟨rfl, h.le⟩
  · rename_i h
    split
    · rename_i h'
      exact Or.inr ⟨rfl, h'.le⟩
    · rename_i h'
      have heq : x - ⌊x⌋ = 1 / 2 := le_antisymm (not_lt.mp h') (not_lt.mp h)
      split
      · exact Or.inl ⟨rfl, heq.le⟩
      · exact Or.inr ⟨rfl, heq.ge⟩

theorem roundHalfEven_nearest (x : ℚ) (k : ℤ) :
    |(roundHalfEven x : ℚ) - x| ≤ |(k : ℚ) - x| := by
  have hfl := Int.floor_le x
  have hlt := Int.lt_floor_add_one x
  have hk : (k : ℚ) ≤ ⌊x⌋ ∨ ((⌊x⌋ : ℚ) + 1 ≤ k) := by
    rcases le_or_lt k ⌊x⌋ with h | h
    · exact Or.inl (by exact_mod_cast h)
    · exact Or.inr (by exact_mod_cast h)
  rcases roundHalfEven_cases x with ⟨hr, ht⟩ | ⟨hr, ht⟩
  · rw [hr, abs_sub_comm, abs_of_nonneg (by linarith)]
    rcases hk with hk | hk
    · rw [abs_sub_comm, abs_of_nonneg (by linarith)]
      linarith
    · rw [abs_of_nonneg (by linarith)]
      linarith
  · rw [hr]
    push_cast
    rw [abs_of_nonneg (by linarith)]
    rcases hk with hk | hk
    · rw [abs_sub_comm, abs_of_nonneg (by linarith)]
      linarith
    · rw [abs_of_nonneg (by linarith)]
      linarith

theorem roundHalfEven_intCast (k : ℤ) : roundHalfEven (k : ℚ) = k := by
  have h := roundHalfEven_nearest (k : ℚ) k
  rw [sub_self, abs_zero] at h
  have h0 : (roundHalfEven (k : ℚ) : ℚ) - k = 0 := abs_eq_zero.mp (le_antisymm h (abs_nonneg _))
  exact_mod_cast sub_eq_zero.mp h0

theorem roundHalfEven_abs_le (x : ℚ) (n : ℕ) (hx : |x| ≤ (n : ℚ)) :
    |(roundHalfEven x : ℚ)| ≤ (n : ℚ) := by
  have hfl := Int.floor_le x
  have hlt := Int.lt_floor_add_one x
  obtain ⟨hlo, hhi⟩ := abs_le.mp hx
  have hfloor_lo : (-(n : ℤ)) ≤ ⌊x⌋ := Int.le_floor.mpr (by push_cast; exact hlo)
  have hfloor_hi : ⌊x⌋ ≤ (n : ℤ) := Int.floor_le_iff.mpr (by push_cast; linarith)
  rcases roundHalfEven_cases x with ⟨hr, ht⟩ | ⟨hr, ht⟩
  · rw [hr, abs_le]
    exact ⟨by exact_mod_cast hfloor_lo, by exact_mod_cast hfloor_hi⟩
  · have hne : ⌊x⌋ ≠ (n : ℤ) := by
      intro heq
      rw [heq] at ht hfl
      push_cast at ht hfl
      linarith
    have hlt' : ⌊x⌋ + 1 ≤ (n : ℤ) := by omega
    rw [hr, abs_le]
    constructor
    · have : (-(n : ℤ)) ≤ ⌊x⌋ + 1 := by omega
      exact_mod_cast this
    · exact_mod_cast hlt'

theorem quantum_pos (q : ℚ) : 0 < quantum q := two_zpow_pos _

theorem quantumExponent_ge (q : ℚ) : -1074 ≤ quantumExponent q := by
  unfold quantumExponent
  have := le_max_right (binaryExponent q) (-1022)
  omega

theorem roundHalfEven_zero : roundHalfEven 0 = 0 := by
  have := roundHalfEven_intCast 0
  simpa using this

theorem roundBinary64_zero : roundBinary64 0 = JSNum.fin 0 := by
  simp [roundBinary64]

theorem roundBinary64_eq_fin (z y : ℚ) (h : roundBinary64 z = JSNum.fin y) :
    y = (roundHalfEven (z / quantum z) : ℚ) * quantum z ∧ |y| < 2 ^ 1024 := by
  unfold roundBinary64 at h
  split at h
  · rename_i hz
    have hy : y = 0 := by
      injection h with h
      exact h.symm
    subst hy hz
    simp [roundHalfEven_zero]
  · split at h
    · split at h <;> cases h
    · rename_i hov
      injection h with h
      rw [← h]
      exact ⟨rfl, not_le.mp hov⟩

/-- A whole multiple m of 2^t with |m| below 2^53 and t from -1074 on, below 2^1024 in
magnitude, is a binary64 number. -/
theorem isBinary64_of_scaled (m t : ℤ) (hm : |m| < 2 ^ 53) (ht : -1074 ≤ t)
    (hlt : |(m : ℚ) * 2 ^ t| < 2 ^ 1024) : isBinary64 ((m : ℚ) * 2 ^ t) := by
  by_cases hq : (m : ℚ) * 2 ^ t = 0
  · rw [hq]
    exact roundBinary64_zero
  · obtain ⟨hlo, _⟩ := binaryExponent_spec _ hq
    have hmq : |(m : ℚ)| < 2 ^ 53 := by
      have : ((|m| : ℤ) : ℚ) < ((2 ^ 53 : ℤ) : ℚ) := by exact_mod_cast hm
      simpa using this
    have habs : |(m : ℚ) * 2 ^ t| < 2 ^ ((53 : ℤ) + t) := by
      rw [abs_mul, abs_of_pos (two_zpow_pos t), zpow_add₀ (by norm_num)]
      exact mul_lt_mul_of_pos_right (by exact_mod_cast hmq) (two_zpow_pos t)
    have he : binaryExponent ((m : ℚ) * 2 ^ t) < 53 + t :=
      (zpow_lt_zpow_iff_right₀ (by norm_num : (1 : ℚ) < 2)).mp (lt_of_le_of_lt hlo habs)
    have hc : quantumExponent ((m : ℚ) * 2 ^ t) ≤ t := by
      unfold quantumExponent
      rcases max_cases (binaryExponent ((m : ℚ) * 2 ^ t)) (-1022) with ⟨h1, _⟩ | ⟨h1, _⟩ <;>
        rw [h1] <;> omega
    obtain ⟨n, hn⟩ := Int.eq_ofNat_of_zero_le (sub_nonneg.mpr hc)
    have hdiv : (m : ℚ) * 2 ^ t / quantum ((m : ℚ) * 2 ^ t) = ((m * 2 ^ n : ℤ) : ℚ) := by
      unfold quantum
      rw [mul_div_assoc, ← zpow_sub₀ (by norm_num), hn]
      push_cast
      rw [zpow_natCast]
    have hback : ((m * 2 ^ n : ℤ) : ℚ) * quantum ((m : ℚ) * 2 ^ t) = (m : ℚ) * 2 ^ t := by
      rw [← hdiv]
      exact div_mul_cancel₀ _ (quantum_pos _).ne'
    unfold isBinary64 roundBinary64
    rw [if_neg hq, hdiv, roundHalfEven_intCast, hback, if_neg (not_le.mpr hlt)]

theorem abs_div_quantum_lt (z : ℚ) (hz : z ≠ 0) : |z / quantum z| < 2 ^ 53 := by
  obtain ⟨_, hhi⟩ := binaryExponent_spec z hz
  rw [abs_div, abs_of_pos (quantum_pos z), div_lt_iff₀ (quantum_pos z)]
  unfold quantum
  have hc : binaryExponent z + 1 ≤ 53 + quantumExponent z := by
    unfold quantumExponent
    have := le_max_left (binaryExponent z) (-1022)
    omega
  calc |z| < 2 ^ (binaryExponent z + 1) := hhi
    _ ≤ 2 ^ ((53 : ℤ) + quantumExponent z) :=
        (zpow_le_zpow_iff_right₀ (by norm_num : (1 : ℚ) < 2)).mpr hc
    _ = 2 ^ 53 * 2 ^ quantumExponent z := by
        rw [zpow_add₀ (by norm_num)]
        norm_num

theorem roundHalfEven_quantum_le (z : ℚ) (hz : z ≠ 0) :
    |roundHalfEven (z / quantum z)| ≤ 2 ^ 53 := by
  have h := roundHalfEven_abs_le (z / quantum z) (2 ^ 53)
    (by push_cast; exact (abs_div_quantum_lt z hz).le)
  have h2 : ((|roundHalfEven (z / quantum z)| : ℤ) : ℚ) ≤ ((2 ^ 53 : ℤ) : ℚ) := by
    push_cast at h ⊢
    exact h
  exact_mod_cast h2

/-- The value of a rounding is a whole multiple m of 2^t with |m| below 2^53 and t from -1074
on. -/
theorem roundBinary64_scaled (z y : ℚ) (h : roundBinary64 z = JSNum.fin y) :
    ∃ m t : ℤ, |m| < 2 ^ 53 ∧ -1074 ≤ t ∧ y = (m : ℚ) * 2 ^ t ∧ |y| < 2 ^ 1024 := by
  obtain ⟨hy, hlt⟩ := roundBinary64_eq_fin z y h
  by_cases hz : z = 0
  · subst hz
    refine ⟨0, 0, by norm_num, by norm_num, ?_, hlt⟩
    rw [hy]
    simp [roundHalfEven_zero]
  · have hr := roundHalfEven_quantum_le z hz
    have hc := quantumExponent_ge z
    rcases lt_or_eq_of_le hr with hr' | hr'
    · exact ⟨roundHalfEven (z / quantum z), quantumExponent z, hr', hc, hy, hlt⟩
    · rcases abs_eq (by norm_num : (0 : ℤ) ≤ 2 ^ 53) |>.mp hr' with hp | hn
      · refine ⟨2 ^ 52, quantumExponent z + 1, by norm_num, by omega, ?_, hlt⟩
        rw [hy, hp, zpow_add₀ (by norm_num)]
        unfold quantum
        push_cast
        ring
      · refine ⟨-2 ^ 52, quantumExponent z + 1, by norm_num, by omega, ?_, hlt⟩
        rw [hy, hn, zpow_add₀ (by norm_num)]
        unfold quantum
        push_cast
        ring

/-- Rounding gives a binary64 number: rounding it again changes nothing. -/
theorem roundBinary64_isBinary64 (z y : ℚ) (h : roundBinary64 z = JSNum.fin y) :
    isBinary64 y := by
  obtain ⟨m, t, hm, ht, hy, hlt⟩ := roundBinary64_scaled z y h
  rw [hy] at hlt ⊢
  exact isBinary64_of_scaled m t hm ht hlt

theorem isBinary64_neg (q : ℚ) (h : isBinary64 q) : isBinary64 (-q) := by
  obtain ⟨m, t, hm, ht, hy, hlt⟩ := roundBinary64_scaled q q h
  have hneg : -q = ((-m : ℤ) : ℚ) * 2 ^ t := by
    rw [hy]
    push_cast
    ring
  rw [hneg]
  refine isBinary64_of_scaled (-m) t (by rwa [abs_neg]) ht ?_
  rw [← hneg, abs_neg]
  exact hlt

theorem isBinary64_intCast (k : ℤ) (hk : |k| < 2 ^ 53) : isBinary64 (k : ℚ) := by
  have h := isBinary64_of_scaled k 0 hk (by norm_num) (by
    rw [zpow_zero, mul_one]
    have : ((|k| : ℤ) : ℚ) < ((2 ^ 53 : ℤ) : ℚ) := by exact_mod_cast hk
    push_cast at this
    exact lt_trans this (by norm_num))
  rwa [zpow_zero, mul_one] at h

/-- Rounding a rational below 2^1023 in magnitude gives a finite number. -/
theorem roundBinary64_finite (z : ℚ) (hz : |z| < 2 ^ 1023) : ∃ y, roundBinary64 z = JSNum.fin y := by
  by_cases h0 : z = 0
  · exact ⟨0, by rw [h0, roundBinary64_zero]⟩
  · obtain ⟨hlo, _⟩ := binaryExponent_spec z h0
    have he : binaryExponent z < 1023 := by
      have h1 : (2 : ℚ) ^ binaryExponent z < 2 ^ (1023 : ℤ) := by
        refine lt_of_le_of_lt hlo (lt_of_lt_of_le hz ?_)
        norm_num
      exact (zpow_lt_zpow_iff_right₀ (by norm_num : (1 : ℚ) < 2)).mp h1
    have hc : (53 : ℤ) + quantumExponent z ≤ 1023 := by
      unfold quantumExponent
      rcases max_cases (binaryExponent z) (-1022) with ⟨h1, _⟩ | ⟨h1, _⟩ <;> rw [h1] <;> omega
    have hr := roundHalfEven_abs_le (z / quantum z) (2 ^ 53)
      (by push_cast; exact (abs_div_quantum_lt z h0).le)
    have hbound : |(roundHalfEven (z / quantum z) : ℚ) * quantum z| < 2 ^ 1024 := by
      rw [abs_mul, abs_of_pos (quantum_pos z)]
      calc |(roundHalfEven (z / quantum z) : ℚ)| * quantum z
          ≤ 2 ^ 53 * quantum z := by
            refine mul_le_mul_of_nonneg_right ?_ (quantum_pos z).le
            push_cast at hr
            exact hr
        _ = 2 ^ ((53 : ℤ) + quantumExponent z) := by
            rw [zpow_add₀ (by norm_num)]
            unfold quantum
            norm_num
        _ ≤ 2 ^ (1023 : ℤ) := (zpow_le_zpow_iff_right₀ (by norm_num : (1 : ℚ) < 2)).mpr hc
        _ < 2 ^ 1024 := by norm_num
    refine ⟨(roundHalfEven (z / quantum z) : ℚ) * quantum z, ?_⟩
    unfold roundBinary64
    rw [if_neg h0, if_neg (not_le.mpr hbound)]

theorem roundBinary64_nearest_grid (z y : ℚ) (h : roundBinary64 z = JSNum.fin y) (k : ℤ) :
    |y - z| ≤ |(k : ℚ) * quantum z - z| := by
  obtain ⟨hy, _⟩ := roundBinary64_eq_fin z y h
  have hQ := quantum_pos z
  have h1 : y - z = ((roundHalfEven (z / quantum z) : ℚ) - z / quantum z) * quantum z := by
    rw [hy, sub_mul, div_mul_cancel₀ _ hQ.ne']
  have h2 : (k : ℚ) * quantum z - z = ((k : ℚ) - z / quantum z) * quantum z := by
    rw [sub_mul, div_mul_cancel₀ _ hQ.ne']
  rw [h1, h2, abs_mul, abs_mul, abs_of_pos hQ]
  exact mul_le_mul_of_nonneg_right (roundHalfEven_nearest _ k) hQ.le

/-- Rounding gives a nearest binary64 number: no binary64 number is nearer to z than the value
of the rounding of z. -/
theorem roundBinary64_nearest (z y x : ℚ) (h : roundBinary64 z = JSNum.fin y)
    (hx : isBinary64 x) : |y - z| ≤ |x - z| := by
  by_cases hz : z = 0
  · subst hz
    rw [roundBinary64_zero] at h
    injection h with h
    rw [← h]
    simp
  by_cases hx0 : x = 0
  · have := roundBinary64_nearest_grid z y h 0
    simpa [hx0] using this
  obtain ⟨hxr, _⟩ := roundBinary64_eq_fin x x hx
  by_cases hc : quantumExponent z ≤ quantumExponent x
  · obtain ⟨n, hn⟩ := Int.eq_ofNat_of_zero_le (sub_nonneg.mpr hc)
    have hxk : x = ((roundHalfEven (x / quantum x) * 2 ^ n : ℤ) : ℚ) * quantum z := by
      conv_lhs => rw [hxr]
      unfold quantum
      push_cast
      rw [mul_assoc, ← zpow_natCast, ← hn, ← zpow_add₀ (by norm_num)]
      congr 2
      ring
    have := roundBinary64_nearest_grid z y h (roundHalfEven (x / quantum x) * 2 ^ n)
    rwa [← hxk] at this
  · obtain ⟨hzlo, _⟩ := binaryExponent_spec z hz
    obtain ⟨_, hxhi⟩ := binaryExponent_spec x hx0
    have hez : quantumExponent z = binaryExponent z - 52
        ∧ binaryExponent x + 1 ≤ binaryExponent z := by
      unfold quantumExponent at hc ⊢
      rcases max_cases (binaryExponent z) (-1022) with ⟨h1, h1'⟩ | ⟨h1, h1'⟩ <;>
        rcases max_cases (binaryExponent x) (-1022) with ⟨h2, h2'⟩ | ⟨h2, h2'⟩ <;>
        rw [h1, h2] at hc <;> rw [h1] <;> constructor <;> omega
    have hxlt : |x| < 2 ^ binaryExponent z :=
      lt_of_lt_of_le hxhi ((zpow_le_zpow_iff_right₀ (by norm_num : (1 : ℚ) < 2)).mpr hez.2)
    have hpow : (2 : ℚ) ^ binaryExponent z = 2 ^ 52 * quantum z := by
      unfold quantum
      rw [hez.1, zpow_sub₀ (by norm_num)]
      field_simp
      ring
    obtain ⟨hx1, hx2⟩ := abs_lt.mp hxlt
    rcases lt_or_gt_of_ne hz with hneg | hpos
    · have hg := roundBinary64_nearest_grid z y h (-2 ^ 52)
      have hcast : (((-2 ^ 52 : ℤ)) : ℚ) * quantum z = -(2 : ℚ) ^ binaryExponent z := by
        rw [hpow]
        push_cast
        ring
      rw [hcast] at hg
      rw [abs_of_neg hneg] at hzlo
      refine le_trans hg ?_
      rw [abs_of_nonneg (by linarith), abs_of_nonneg (by linarith)]
      linarith
    · have hg := roundBinary64_nearest_grid z y h (2 ^ 52)
      have hcast : (((2 ^ 52 : ℤ)) : ℚ) * quantum z = (2 : ℚ) ^ binaryExponent z := by
        rw [hpow]
        push_cast
        ring
      rw [hcast] at hg
      rw [abs_of_pos hpos] at hzlo
      refine le_trans hg ?_
      rw [abs_sub_comm, abs_of_nonneg (by linarith), abs_sub_comm, abs_of_nonneg (by linarith)]
      linarith

/-! ## The shortest decimal of a binary64 number -/

theorem bitLength_two_pow (j : ℕ) : bitLength (2 ^ j) = j + 1 := by
  obtain ⟨k, hk, hlo, hhi⟩ := bitLength_spec (2 ^ j) (by positivity)
  have h1 : k ≤ j := (Nat.pow_le_pow_iff_right (by norm_num)).mp hlo
  have h2 : j < k + 1 := (Nat.pow_lt_pow_iff_right (by norm_num)).mp hhi
  omega

theorem den_of_scaled (m t : ℤ) (a : ℕ) (ht : -(a : ℤ) ≤ t) :
    ∃ j : ℕ, ((m : ℚ) * 2 ^ t).den = 2 ^ j := by
  obtain ⟨n, hn⟩ := Int.eq_ofNat_of_zero_le (by omega : 0 ≤ t + a)
  have ht' : t = (n : ℤ) - a := by omega
  have hdiv : (m : ℚ) * 2 ^ t = Rat.divInt (m * 2 ^ n) ((2 ^ a : ℕ) : ℤ) := by
    rw [Rat.divInt_eq_div, ht', zpow_sub₀ (by norm_num), zpow_natCast, zpow_natCast]
    push_cast
    rw [mul_div_assoc]
  have hdvd : (((m : ℚ) * 2 ^ t).den : ℤ) ∣ ((2 ^ a : ℕ) : ℤ) := by
    rw [hdiv]
    exact Rat.den_dvd _ _
  obtain ⟨j, _, hj⟩ := (Nat.dvd_prime_pow Nat.prime_two).mp (Int.natCast_dvd_natCast.mp hdvd)
  exact ⟨j, hj⟩

theorem isBinary64_den (y : ℚ) (hy : isBinary64 y) : ∃ j : ℕ, y.den = 2 ^ j := by
  obtain ⟨m, t, _, ht, hym, _⟩ := roundBinary64_scaled y y hy
  rw [hym]
  exact den_of_scaled m t 1074 (by exact_mod_cast ht)

theorem exactDecimal_spec (y : ℚ) (hy : isBinary64 y) (hpos : 0 < y) :
    ((exactDecimal y).1 : ℚ) * 10 ^ (exactDecimal y).2 = y := by
  obtain ⟨j, hj⟩ := isBinary64_den y hy
  have hb : bitLength y.den - 1 = j := by
    rw [hj, bitLength_two_pow]
    rfl
  have habs := abs_eq_natAbs_div_den y
  rw [abs_of_pos hpos, hj] at habs
  unfold exactDecimal
  simp only [hb]
  rw [zpow_neg, zpow_natCast]
  conv_rhs => rw [habs]
  push_cast
  have h10 : (10 : ℚ) ^ j = 2 ^ j * 5 ^ j := by
    rw [← mul_pow]
    norm_num
  rw [h10]
  field_simp
  ring

theorem shortestCandidate_spec (y : ℚ) (k : ℕ) (found : ℕ × ℤ)
    (h : shortestCandidate y k = some found) :
    roundBinary64 ((found.1 : ℚ) * 10 ^ found.2) = JSNum.fin y := by
  unfold shortestCandidate at h
  simp only at h
  split at h
  · rename_i hlo
    split at h
    · rename_i hhi
      split at h
      · cases h
        exact hlo
      · split at h
        · cases h
          exact hhi
        · split at h
          · cases h
            exact hlo
          · cases h
            exact hhi
    · cases h
      exact hlo
  · split at h
    · rename_i hhi
      cases h
      exact hhi
    · cases h

/-- The decimal that the search finds reads back as the number. -/
theorem shortestSearch_spec (y : ℚ) (hy : isBinary64 y) (hpos : 0 < y) (fuel : ℕ) :
    ∀ k : ℕ, roundBinary64 (((shortestSearch y fuel k).1 : ℚ) * 10 ^ (shortestSearch y fuel k).2)
      = JSNum.fin y := by
  induction fuel with
  | zero =>
    intro k
    rw [shortestSearch, exactDecimal_spec y hy hpos]
    exact hy
  | succ f ih =>
    intro k
    rw [shortestSearch]
    cases hc : shortestCandidate y k with
    | none => exact ih (k + 1)
    | some found => exact shortestCandidate_spec y k found hc

theorem shortestSearch_pos (y : ℚ) (hy : isBinary64 y) (hpos : 0 < y) (fuel k : ℕ) :
    0 < (shortestSearch y fuel k).1 := by
  rcases Nat.eq_zero_or_pos (shortestSearch y fuel k).1 with h0 | h0
  · have h := shortestSearch_spec y hy hpos fuel k
    rw [h0] at h
    simp only [Nat.cast_zero, zero_mul, roundBinary64_zero] at h
    injection h with h
    exact absurd h.symm hpos.ne'
  · exact h0
/-! ## Arithmetic of the truncating remainder -/

theorem JSNum.eq_self_fin (b : JSNum) (q : ℚ) : JSNum.eq b (JSNum.fin q) = true ↔ b = JSNum.fin q := by
  cases b <;> simp [JSNum.eq]

theorem JSNum.truncate_neg (x : ℚ) : JSNum.truncate (-x) = - JSNum.truncate x := by
  simp [JSNum.truncate, Int.neg_tdiv]

theorem JSNum.truncate_of_nonneg {x : ℚ} (hx : 0 ≤ x) : JSNum.truncate x = ⌊x⌋ := by
  rw [Rat.floor_def, JSNum.truncate]
  exact Int.tdiv_eq_ediv (Rat.num_nonneg.mpr hx) (Int.ofNat_nonneg _)

theorem JSNum.truncate_natCast_div (m n : ℕ) :
    JSNum.truncate ((m : ℚ) / (n : ℚ)) = Int.tdiv (m : ℤ) (n : ℤ) := by
  rw [JSNum.truncate_of_nonneg (by positivity)]
  have := Rat.floor_intCast_div_natCast (m : ℤ) n
  simp only [Int.cast_natCast] at this
  rw [this]
  exact (Int.tdiv_eq_ediv (Int.ofNat_nonneg _) (Int.ofNat_nonneg _)).symm

theorem JSNum.truncate_intCast_div (a b : ℤ) :
    JSNum.truncate ((a : ℚ) / (b : ℚ)) = Int.tdiv a b := by
  obtain ⟨m, rfl | rfl⟩ := Int.eq_nat_or_neg a <;> obtain ⟨n, rfl | rfl⟩ := Int.eq_nat_or_neg b
  · simpa using JSNum.truncate_natCast_div m n
  · have := JSNum.truncate_natCast_div m n
    simp only [Int.cast_neg, Int.cast_natCast, div_neg, JSNum.truncate_neg, Int.tdiv_neg, this]
  · have := JSNum.truncate_natCast_div m n
    simp only [Int.cast_neg, Int.cast_natCast, neg_div, JSNum.truncate_neg, Int.neg_tdiv, this]
  · have := JSNum.truncate_natCast_div m n
    simp only [Int.cast_neg, Int.cast_natCast, neg_div_neg_eq, Int.neg_tdiv, Int.tdiv_neg, this, neg_neg]

theorem JSNum.rem_intCast (a b : ℤ) (hb : b ≠ 0) :
    JSNum.rem (JSNum.fin a) (JSNum.fin b) = JSNum.fin ((Int.tmod a b : ℤ) : ℚ) := by
  have hb' : (b : ℚ) ≠ 0 := by exact_mod_cast hb
  simp only [JSNum.rem, hb', if_false, JSNum.truncate_intCast_div, Int.tmod_def]
  push_cast
  rfl

theorem neg_tmod_eq (a b : ℤ) : Int.tmod (-a) b = - Int.tmod a b := by
  rw [Int.tmod_def, Int.tmod_def, Int.neg_tdiv]
  ring

theorem tmod_gt_neg (a : ℤ) {b : ℤ} (hb : 0 < b) : -b < Int.tmod a b := by
  rcases le_or_lt 0 a with ha | ha
  · have := Int.tmod_nonneg b ha
    omega
  · have h1 := Int.tmod_lt_of_pos (-a) hb
    rw [neg_tmod_eq] at h1
    omega

theorem dvd_sub_tmod (a b : ℤ) : b ∣ a - Int.tmod a b := by
  rw [Int.tmod_def]
  exact ⟨a.tdiv b, by ring⟩

theorem tmod_tmod_add (a b : ℤ) :
    b ∣ a - Int.tmod (Int.tmod a b + b) b
    ∧ (0 < b → 0 ≤ Int.tmod (Int.tmod a b + b) b ∧ Int.tmod (Int.tmod a b + b) b < b)
    ∧ (b < 0 → b < Int.tmod (Int.tmod a b + b) b ∧ Int.tmod (Int.tmod a b + b) b ≤ 0) := by
  refine ⟨?_, ?_, ?_⟩
  · have h1 := dvd_sub_tmod a b
    have h2 := dvd_sub_tmod (Int.tmod a b + b) b
    have h3 : a - Int.tmod (Int.tmod a b + b) b
        = (a - Int.tmod a b) + ((Int.tmod a b + b) - Int.tmod (Int.tmod a b + b) b) - b := by ring
    rw [h3]
    exact Int.dvd_sub (Int.dvd_add h1 h2) (Int.dvd_refl b)
  · intro hpos
    have h1 := tmod_gt_neg a hpos
    exact ⟨Int.tmod_nonneg b (by omega), Int.tmod_lt_of_pos _ hpos⟩
  · intro hneg
    have hpos : 0 < -b := by omega
    have h1 := Int.tmod_lt_of_pos a hpos
    rw [Int.tmod_neg] at h1
    have h2 := Int.tmod_nonneg (-b) (show 0 ≤ -(Int.tmod a b + b) by omega)
    have h3 := Int.tmod_lt_of_pos (-(Int.tmod a b + b)) hpos
    rw [Int.tmod_neg, neg_tmod_eq] at h2 h3
    omega

/-! ## The operators on their own -/

theorem factorialLoop_natCast (r : ℚ) (n : ℕ) :
    factorialLoop (JSNum.fin r) (n : ℚ) = JSNum.fin (r * (n.factorial : ℚ)) := by
  induction n generalizing r with
  | zero =>
    rw [factorialLoop]
    simp
  | succ k ih =>
    rw [factorialLoop]
    have hpos : (0 : ℚ) < ((k + 1 : ℕ) : ℚ) := by positivity
    have hstep : ((k + 1 : ℕ) : ℚ) - 1 = (k : ℚ) := by push_cast; ring
    rw [if_pos hpos, hstep]
    simp only [JSNum.mul]
    rw [ih, Nat.factorial_succ]
    push_cast
    ring_nf

theorem factorial_natCast (h : Host) (n : ℕ) (hn : n ≤ 2 ^ 53 - 1) :
    factorial h (JSNum.fin (n : ℚ)) = .ok (JSNum.fin (n.factorial : ℚ)) := by
  have hg : (!(JSNum.fin (n : ℚ)).isSafeInteger
      || JSNum.lt (JSNum.fin (n : ℚ)) (JSNum.fin 0)) = false := by
    simp [JSNum.isSafeInteger, JSNum.lt]
    omega
  simp only [factorial, hg, Bool.false_eq_true, if_false, factorialLoop_natCast, one_mul]

theorem factorial_ok_natCast (h : Host) (a v : JSNum) (hv : factorial h a = .ok v) :
    ∃ n : ℕ, n ≤ 2 ^ 53 - 1 ∧ a = JSNum.fin (n : ℚ) := by
  cases a with
  | nan => simp [factorial] at hv
  | posInf => simp [factorial] at hv
  | negInf => simp [factorial] at hv
  | fin q =>
    by_cases hg : (!(JSNum.fin q).isSafeInteger || JSNum.lt (JSNum.fin q) (JSNum.fin 0)) = true
    · simp [factorial, hg] at hv
    · simp [JSNum.isSafeInteger, JSNum.lt] at hg
      obtain ⟨⟨hden, hnum⟩, hq⟩ := hg
      have hq0 : 0 ≤ q.num := Rat.num_nonneg.mpr hq
      refine ⟨q.num.natAbs, by omega, ?_⟩
      congr 1
      have h1 : ((q.num.natAbs : ℤ) : ℚ) = (q.num : ℚ) := by
        rw [Int.natAbs_of_nonneg hq0]
      have h2 : (q.num : ℚ) = q := (Rat.den_eq_one_iff q).mp hden
      exact h2.symm.trans (h1.symm.trans (Int.cast_natCast _))

theorem factorial_error_message (h : Host) (a : JSNum) (e : JSError)
    (he : factorial h a = .error e) :
    e = .MathError ("cannot find the factorial of " ++ formatMathematicalNumber h a) := by
  cases a with
  | nan => simp [factorial] at he; exact he.symm
  | posInf => simp [factorial] at he; exact he.symm
  | negInf => simp [factorial] at he; exact he.symm
  | fin q =>
    by_cases hg : (!(JSNum.fin q).isSafeInteger || JSNum.lt (JSNum.fin q) (JSNum.fin 0)) = true
    · simp only [factorial, hg, if_true] at he
      cases he
      rfl
    · simp only [factorial, hg, if_false] at he
      cases he

/-! ## The loop of doTheMath, one token at a time -/

theorem popN_append (below args : List JSNum) : popN args.length (below ++ args) = below := by
  induction args using List.reverseRecOn with
  | nil => simp [popN]
  | append_singleton init x ih =>
    rw [List.length_append, List.length_singleton, popN, ← List.append_assoc,
      List.dropLast_concat]
    exact ih

theorem length_popN (n : ℕ) (output : List JSNum) : (popN n output).length = output.length - n := by
  induction n generalizing output with
  | zero => simp [popN]
  | succ k ih =>
    rw [popN, ih, List.length_dropLast]
    omega

theorem drop_length_sub (below args : List JSNum) :
    (below ++ args).drop ((below ++ args).length - args.length) = args := by
  simp

theorem applyOp_ok (thisOp : MathOp) (below args : List JSNum) (v : JSNum)
    (hlen : args.length = thisOp.args) (hfun : thisOp.func args = .ok v) :
    applyOp thisOp (below ++ args) = .ok (below ++ [v]) := by
  have hnot : ¬ (below ++ args).length < thisOp.args := by
    rw [List.length_append]
    omega
  rw [applyOp, if_neg hnot, ← hlen, drop_length_sub, hfun]
  simp only [popN_append]

theorem applyOp_short (thisOp : MathOp) (output : List JSNum)
    (hlen : output.length < thisOp.args) :
    applyOp thisOp output = .error (.MathError ("cannot perform " ++ thisOp.opName
      ++ " operation on " ++ toString output.length ++ " values")) := by
  rw [applyOp, if_pos hlen]

theorem processToken_op (h : Host) (output : List JSNum) (char : String) (thisOp : MathOp)
    (hnum : isNumberToken (stripSign char) = false)
    (hop : findOp h (stripSign char) = some thisOp) :
    processToken h output char = applyOp thisOp output := by
  simp only [processToken, hnum, hop, Bool.false_eq_true, if_false]

theorem processToken_number (h : Host) (output : List JSNum) (char : String)
    (hnum : isNumberToken (stripSign char) = true) :
    processToken h output char
      = .ok (output ++ [(Number (stripSign char)).mul (signFactor char)]) := by
  simp only [processToken, hnum, if_true]

theorem runTokens_append (h : Host) (pre post : List String) (output : List JSNum) :
    runTokens h output (pre ++ post) =
      match runTokens h output pre with
      | .error e => .error e
      | .ok next => runTokens h next post := by
  induction pre generalizing output with
  | nil => simp [runTokens]
  | cons t ts ih =>
    simp only [List.cons_append, runTokens]
    cases processToken h output t with
    | error e => rfl
    | ok next => exact ih next

/-! ## Facts about the two tables -/

theorem alias_lookup (h : Host) (op : MathOp) (sym : String)
    (hop : op ∈ MATH_OPS h) (hsym : sym ∈ op.symbol.aliases) :
    hasSign sym = false ∧ isNumberToken sym = false ∧ findOp h sym = some op
      ∧ ' ' ∉ sym.data := by
  simp only [MATH_OPS, List.mem_cons, List.mem_singleton, List.not_mem_nil, or_false] at hop
  rcases hop with rfl | rfl | rfl | rfl | rfl | rfl | rfl | rfl | rfl | rfl | rfl | rfl | rfl
    | rfl | rfl | rfl | rfl <;>
  simp only [Symbol.aliases, List.mem_cons, List.mem_singleton, List.not_mem_nil, or_false]
    at hsym <;>
  (try rcases hsym with rfl | rfl | rfl) <;>
  exact ⟨by decide, by decide, by with_unfolding_all rfl, by decide⟩

theorem multiplication_error (h : Host) (a b : JSNum) (e : JSError)
    (he : multiplication h a b = .error e) :
    e = .MathError ("cannot multiply " ++ formatMathematicalNumber h a ++ " by "
      ++ formatMathematicalNumber h b) := by
  unfold multiplication at he
  split at he
  · cases he
    rfl
  · cases he

theorem division_error (a b : JSNum) (e : JSError) (he : division a b = .error e) :
    e = .MathError "cannot divide by 0" := by
  unfold division at he
  split at he
  · cases he
    rfl
  · cases he

theorem remainder_error (a b : JSNum) (e : JSError) (he : remainder a b = .error e) :
    e = .MathError "cannot divide by 0" := by
  unfold remainder at he
  split at he
  · cases he
    rfl
  · cases he

theorem root_error (h : Host) (a b : JSNum) (e : JSError) (he : root h a b = .error e) :
    e = .MathError "cannot find a 0th root" := by
  unfold root at he
  split at he
  · cases he
    rfl
  · cases he

/-- The first eight characters of a message. -/
theorem take_eight_append (s t : String) (hs : 8 ≤ s.data.length) :
    (s ++ t).data.take 8 = s.data.take 8 := by
  rw [String.data_append, List.take_append_of_le_length hs]

theorem func_error_head (h : Host) (op : MathOp) (hop : op ∈ MATH_OPS h) (xs : List JSNum)
    (e : JSError) (he : op.func xs = .error e) :
    ∃ m, e = .MathError m ∧ m.data.take 8 ≠ "cannot p".data := by
  simp only [MATH_OPS, List.mem_cons, List.mem_singleton, List.not_mem_nil, or_false] at hop
  rcases hop with rfl | rfl | rfl | rfl | rfl | rfl | rfl | rfl | rfl | rfl | rfl | rfl | rfl
    | rfl | rfl | rfl | rfl <;> simp only [binary, unary] at he
  all_goals first
    | cases he
    | (have hm := multiplication_error h _ _ e he
       refine ⟨_, hm, ?_⟩
       rw [String.append_assoc, String.append_assoc, take_eight_append _ _ (by decide)]
       decide)
    | (have hm := division_error _ _ e he
       exact ⟨_, hm, by decide⟩)
    | (have hm := remainder_error _ _ e he
       exact ⟨_, hm, by decide⟩)
    | (have hm := root_error h _ _ e he
       exact ⟨_, hm, by decide⟩)
    | (have hm := factorial_error_message h _ e he
       refine ⟨_, hm, ?_⟩
       rw [take_eight_append _ _ (by decide)]
       decide)

theorem arity_message_head (name : String) (k : ℕ) :
    ("cannot perform " ++ name ++ " operation on " ++ toString k ++ " values").data.take 8
      = "cannot p".data := by
  rw [String.append_assoc, String.append_assoc, String.append_assoc,
    take_eight_append _ _ (by decide)]
  decide

theorem find?_eq_of_agree {α : Type} (p q : α → Bool) (l : List α)
    (hpq : ∀ x ∈ l, p x = q x) : l.find? p = l.find? q := by
  induction l with
  | nil => rfl
  | cons x xs ih =>
    have hx := hpq x (List.mem_cons_self x xs)
    have hxs : ∀ y ∈ xs, p y = q y := fun y hy => hpq y (List.mem_cons_of_mem x hy)
    simp only [List.find?, hx, ih hxs]

theorem joined_mem (h : Host) (op : MathOp) (ss : List String) (hop : op ∈ MATH_OPS h)
    (hsym : op.symbol = Symbol.arr ss) : ",".intercalate ss ∈ joinedAliasLists h := by
  unfold joinedAliasLists
  rw [List.mem_filterMap]
  exact ⟨op, hop, by rw [hsym]⟩

theorem isMatch_eq_contains (h : Host) (token : String) (hj : token ∉ joinedAliasLists h)
    (op : MathOp) (hop : op ∈ MATH_OPS h) :
    op.symbol.isMatch token = op.symbol.aliases.contains token := by
  cases hsym : op.symbol with
  | str s =>
    simp only [Symbol.isMatch, Symbol.aliases, List.contains, List.elem, Bool.beq_comm]
    cases token == s <;> rfl
  | arr ss =>
    have hne : (",".intercalate ss == token) = false := by
      apply beq_false_of_ne
      intro heq
      exact hj (heq ▸ joined_mem h op ss hop hsym)
    simp only [Symbol.isMatch, Symbol.aliases, hne, Bool.or_false]

theorem findOp_eq_opOfAlias (h : Host) (token : String) (hj : token ∉ joinedAliasLists h) :
    findOp h token = opOfAlias h token :=
  find?_eq_of_agree _ _ _ (isMatch_eq_contains h token hj)

theorem alias_not_joined (h : Host) (op : MathOp) (sym : String)
    (hop : op ∈ MATH_OPS h) (hsym : sym ∈ op.symbol.aliases) : sym ∉ joinedAliasLists h := by
  intro hj
  have hcomma : ',' ∈ sym.data := by
    simp only [joinedAliasLists, MATH_OPS, List.filterMap_cons, List.filterMap_nil,
      List.mem_cons, List.mem_singleton, List.not_mem_nil, or_false] at hj
    rcases hj with rfl | rfl | rfl | rfl | rfl | rfl <;> decide
  simp only [MATH_OPS, List.mem_cons, List.mem_singleton, List.not_mem_nil, or_false] at hop
  rcases hop with rfl | rfl | rfl | rfl | rfl | rfl | rfl | rfl | rfl | rfl | rfl | rfl | rfl
    | rfl | rfl | rfl | rfl <;>
  simp only [Symbol.aliases, List.mem_cons, List.mem_singleton, List.not_mem_nil, or_false]
    at hsym <;>
  (try rcases hsym with rfl | rfl | rfl) <;>
  revert hcomma <;> decide

theorem opOfAlias_mem (h : Host) (token : String) (op : MathOp)
    (hop : opOfAlias h token = some op) : op ∈ MATH_OPS h ∧ token ∈ op.symbol.aliases := by
  unfold opOfAlias at hop
  refine ⟨List.mem_of_find?_eq_some hop, ?_⟩
  have := List.find?_some hop
  simpa using this

theorem findOp_of_opOfAlias (h : Host) (token : String) (op : MathOp)
    (hop : opOfAlias h token = some op) : findOp h token = some op := by
  obtain ⟨hmem, hsym⟩ := opOfAlias_mem h token op hop
  exact (alias_lookup h op token hmem hsym).2.2.1

theorem findOp_none (h : Host) (token : String)
    (hop : ∀ op ∈ MATH_OPS h, token ∉ op.symbol.aliases) (hj : token ∉ joinedAliasLists h) :
    findOp h token = none := by
  rw [findOp_eq_opOfAlias h token hj, opOfAlias, List.find?_eq_none]
  intro op hmem
  simpa using hop op hmem

theorem findConstant_none (token : String)
    (hc : ∀ c ∈ MATH_CONSTANTS, token ∉ c.symbols) : findConstant token = none := by
  rw [findConstant, List.find?_eq_none]
  intro c hmem
  simpa using hc c hmem

/-! ## What the operators compute -/

/-- C6: division, remainder and modulo fail with "cannot divide by 0" exactly when the second
operand is 0, root fails with "cannot find a 0th root" exactly when it is 0; with another second
operand none of the four fails, and division returns the quotient. -/
theorem zero_divisor_errors (h : Host) (a b : JSNum) :
    (division a b = .error (.MathError "cannot divide by 0") ↔ b = JSNum.fin 0)
    ∧ (remainder a b = .error (.MathError "cannot divide by 0") ↔ b = JSNum.fin 0)
    ∧ (modulo a b = .error (.MathError "cannot divide by 0") ↔ b = JSNum.fin 0)
    ∧ (root h a b = .error (.MathError "cannot find a 0th root") ↔ b = JSNum.fin 0)
    ∧ (b ≠ JSNum.fin 0 →
        division a b = .ok (a.div b)
        ∧ (∃ v, remainder a b = .ok v) ∧ (∃ v, modulo a b = .ok v) ∧ (∃ v, root h a b = .ok v))
    ∧ (∀ p q : ℚ, a = JSNum.fin p → b = JSNum.fin q → q ≠ 0 →
        division a b = .ok (JSNum.fin (p / q))) := by
  have hz : JSNum.eq b (JSNum.fin 0) = true ↔ b = JSNum.fin 0 := JSNum.eq_self_fin b 0
  by_cases hb : b = JSNum.fin 0
  · subst hb
    simp [division, remainder, modulo, root, JSNum.eq]
  · have hne : JSNum.eq b (JSNum.fin 0) = false := by
      cases hcase : JSNum.eq b (JSNum.fin 0)
      · rfl
      · exact absurd (hz.mp hcase) hb
    simp only [division, remainder, modulo, root, hne, hb]
    simp
    intro p q ha hq hq0
    subst ha hq
    simp [JSNum.div, hq0]

/-- Witness of C6 on 5 and 0, and on 6 and 3. -/
theorem zero_divisor_errors_witness :
    division (JSNum.fin 5) (JSNum.fin 0) = .error (.MathError "cannot divide by 0")
    ∧ division (JSNum.fin 6) (JSNum.fin 3) = .ok (JSNum.fin (6 / 3)) :=
  ⟨(zero_divisor_errors Host.exact (JSNum.fin 5) (JSNum.fin 0)).1.mpr rfl,
   (zero_divisor_errors Host.exact (JSNum.fin 6) (JSNum.fin 3)).2.2.2.2.2 6 3 rfl rfl
     (by norm_num)⟩

/-- C7: on a non-negative safe integer n the factorial operator returns n! (the loop is a total
function, so it terminates), and up to n = 18 the result is itself a safe integer. -/
theorem factorial_returns_factorial (h : Host) (n : ℕ) (hn : n ≤ 2 ^ 53 - 1) :
    factorial h (JSNum.fin (n : ℚ)) = .ok (JSNum.fin (n.factorial : ℚ))
    ∧ (n ≤ 18 → (JSNum.fin (n.factorial : ℚ)).isSafeInteger = true) := by
  refine ⟨factorial_natCast h n hn, ?_⟩
  intro h18
  have hle : n.factorial ≤ Nat.factorial 18 := Nat.factorial_le h18
  have h18v : Nat.factorial 18 ≤ 2 ^ 53 - 1 := by decide
  simp [JSNum.isSafeInteger]
  omega

/-- Witness of C7: the factorial of 5 is 120. -/
theorem factorial_returns_factorial_witness :
    factorial Host.exact (JSNum.fin (5 : ℕ)) = .ok (JSNum.fin ((120 : ℕ) : ℚ)) :=
  (factorial_returns_factorial Host.exact 5 (by norm_num)).1

/-- C8: the factorial operator fails exactly when its operand is not a non-negative safe
integer, and the error is then the MathError "cannot find the factorial of " followed by the
formatted operand. -/
theorem factorial_error_iff (h : Host) (a : JSNum) :
    ((∃ e, factorial h a = .error e) ↔ ¬ ∃ n : ℕ, n ≤ 2 ^ 53 - 1 ∧ a = JSNum.fin (n : ℚ))
    ∧ (∀ e, factorial h a = .error e →
        e = .MathError ("cannot find the factorial of " ++ formatMathematicalNumber h a)) := by
  refine ⟨⟨?_, ?_⟩, factorial_error_message h a⟩
  · rintro ⟨e, he⟩ ⟨n, hn, rfl⟩
    rw [factorial_natCast h n hn] at he
    cases he
  · intro hnot
    cases hres : factorial h a with
    | error e => exact ⟨e, rfl⟩
    | ok v => exact absurd (factorial_ok_natCast h a v hres) hnot

/-- Witness of C8: the factorial of -1 fails with "cannot find the factorial of -1". -/
theorem factorial_error_iff_witness :
    factorial Host.exact (JSNum.fin (-1))
      = .error (.MathError "cannot find the factorial of -1") := by
  have hfail : factorial Host.exact (JSNum.fin (-1))
      = .error (.MathError "cannot find the factorial of -1") := by decide!
  have hmsg := (factorial_error_iff Host.exact (JSNum.fin (-1))).2 _ hfail
  rw [hfail, hmsg]

/-- C9: the guard of the multiplication operator compares with +Infinity only. An operand pair
(+Infinity, 0) or (0, +Infinity) raises the MathError; every other pair returns the product, so
"-infinity 0 *" and "0 -infinity *" return NaN where the claim expects the error. -/
theorem multiplication_guard_positive_only (h : Host) :
    (∀ a b : JSNum, multiplication h a b =
      if (a = JSNum.posInf ∧ b = JSNum.fin 0) ∨ (a = JSNum.fin 0 ∧ b = JSNum.posInf)
      then .error (.MathError ("cannot multiply " ++ formatMathematicalNumber h a ++ " by "
        ++ formatMathematicalNumber h b))
      else .ok (a.mul b))
    ∧ doTheMath h "-infinity 0 *" = .ok [JSNum.nan]
    ∧ doTheMath h "0 -infinity *" = .ok [JSNum.nan]
    ∧ doTheMath h "infinity 0 *" = .error (.MathError "cannot multiply ∞ by 0")
    ∧ doTheMath h "0 infinity *" = .error (.MathError "cannot multiply 0 by ∞") := by
  refine ⟨?_, by with_unfolding_all rfl, by with_unfolding_all rfl, by with_unfolding_all rfl,
    by with_unfolding_all rfl⟩
  intro a b
  cases a <;> cases b <;> simp [multiplication, JSNum.eq]

/-- C10, as it fails: on 7 and -3 the modulo operator returns -2, which is negative and is not
the Euclidean remainder 1. -/
theorem modulo_negative_divisor_counterexample :
    modulo (JSNum.fin ((7 : ℤ) : ℚ)) (JSNum.fin ((-3 : ℤ) : ℚ)) = .ok (JSNum.fin ((-2 : ℤ) : ℚ))
    ∧ modulo (JSNum.fin ((7 : ℤ) : ℚ)) (JSNum.fin ((-3 : ℤ) : ℚ))
        ≠ .ok (JSNum.fin ((7 % (-3) : ℤ) : ℚ))
    ∧ doTheMath Host.exact "7 -3 mod" = .ok [JSNum.fin (-2)] := by
  decide!

/-- Beyond the bounds of the amended C10 the sum in the middle is rounded: on 2 and 2^53 - 1
it is 2^53 + 1, rounded to 2^53, and the operator returns 1, not 2. -/
theorem modulo_inner_sum_rounds :
    modulo (JSNum.fin 2) (JSNum.fin 9007199254740991) = .ok (JSNum.fin 1) := by
  decide!

/-- C10, amended: on a safe integer a and an integer b with 0 < |b| <= 2^52 the modulo operator
returns the floored remainder: the integer r with a - r a multiple of b that lies in [0, b) for
positive b and in (b, 0] for negative b. For positive b this is the Euclidean remainder, never
negative. Within these bounds the operands and the sum in the middle are binary64 numbers, so
nothing is rounded. -/
theorem modulo_floored (a b : ℤ) (ha : |a| < 2 ^ 53) (hb : b ≠ 0) (hb2 : |b| ≤ 2 ^ 52) :
    ∃ r : ℤ, modulo (JSNum.fin (a : ℚ)) (JSNum.fin (b : ℚ)) = .ok (JSNum.fin (r : ℚ))
      ∧ b ∣ a - r
      ∧ (0 < b → 0 ≤ r ∧ r < b ∧ r = a % b)
      ∧ (b < 0 → b < r ∧ r ≤ 0)
      ∧ isBinary64 (a : ℚ) ∧ isBinary64 (b : ℚ)
      ∧ isBinary64 ((Int.tmod a b + b : ℤ) : ℚ) := by
  have hb' : (b : ℚ) ≠ 0 := by exact_mod_cast hb
  have hne : JSNum.eq (JSNum.fin (b : ℚ)) (JSNum.fin 0) = false := by
    simp [JSNum.eq, hb']
  obtain ⟨hdvd, hpos, hneg⟩ := tmod_tmod_add a b
  have hsum : |Int.tmod a b + b| < 2 ^ 53 := by
    rcases lt_or_gt_of_ne hb with hlt | hgt
    · have h1 := Int.tmod_lt_of_pos a (by omega : 0 < -b)
      have h2 := tmod_gt_neg a (by omega : 0 < -b)
      rw [Int.tmod_neg] at h1 h2
      rw [abs_of_neg hlt] at hb2
      rw [abs_lt]
      constructor <;> omega
    · have h1 := Int.tmod_lt_of_pos a hgt
      have h2 := tmod_gt_neg a hgt
      rw [abs_of_pos hgt] at hb2
      rw [abs_lt]
      constructor <;> omega
  have hmid := isBinary64_intCast (Int.tmod a b + b) hsum
  refine ⟨Int.tmod (Int.tmod a b + b) b, ?_, hdvd, ?_, hneg, isBinary64_intCast a ha,
    isBinary64_intCast b (lt_of_le_of_lt hb2 (by norm_num)), hmid⟩
  · rw [modulo, hne]
    simp only [Bool.false_eq_true, if_false, JSNum.rem_intCast a b hb, JSNum.add]
    rw [← Int.cast_add]
    have hround : (JSNum.fin ((Int.tmod a b + b : ℤ) : ℚ)).toBinary64
        = JSNum.fin ((Int.tmod a b + b : ℤ) : ℚ) := hmid
    rw [hround, JSNum.rem_intCast _ b hb]
  · intro h0
    obtain ⟨h1, h2⟩ := hpos h0
    refine ⟨h1, h2, ?_⟩
    have hmod : (a - Int.tmod (Int.tmod a b + b) b) % b = 0 := Int.emod_eq_zero_of_dvd hdvd
    have := Int.emod_emod_of_dvd a (Int.dvd_refl b)
    rw [← Int.emod_eq_of_lt h1 h2]
    exact (Int.emod_eq_emod_iff_emod_sub_eq_zero.mpr hmod).symm

/-- Witness of the amended C10 on -7 and 3. -/
theorem modulo_floored_witness :
    ∃ r : ℤ, modulo (JSNum.fin ((-7 : ℤ) : ℚ)) (JSNum.fin ((3 : ℤ) : ℚ)) = .ok (JSNum.fin (r : ℚ))
      ∧ (3 : ℤ) ∣ -7 - r
      ∧ ((0 : ℤ) < 3 → 0 ≤ r ∧ r < 3 ∧ r = -7 % 3)
      ∧ ((3 : ℤ) < 0 → 3 < r ∧ r ≤ 0)
      ∧ isBinary64 ((-7 : ℤ) : ℚ) ∧ isBinary64 ((3 : ℤ) : ℚ)
      ∧ isBinary64 ((Int.tmod (-7) 3 + 3 : ℤ) : ℚ) :=
  modulo_floored (-7) 3 (by decide) (by decide) (by decide)

/-! ## What one operator token does to the stack -/

theorem applyOp_length (thisOp : MathOp) (output next : List JSNum)
    (hok : applyOp thisOp output = .ok next) :
    thisOp.args ≤ output.length ∧ next.length + thisOp.args = output.length + 1 := by
  unfold applyOp at hok
  split at hok
  · cases hok
  · rename_i hlen
    split at hok
    · cases hok
    · cases hok
      rw [List.length_append, length_popN, List.length_singleton]
      omega

theorem runTokens_depth (h : Host) (tokens : List String) :
    ∀ output final : List JSNum,
      (∀ t ∈ tokens, isNumberToken (stripSign t) = true
        ∨ (opOfAlias h (stripSign t)).isSome = true) →
      runTokens h output tokens = .ok final →
      (final.length : ℤ) = output.length + numberCount tokens - arityExcess h tokens := by
  induction tokens with
  | nil =>
    intro output final _ hrun
    simp only [runTokens] at hrun
    cases hrun
    simp [numberCount, arityExcess]
  | cons t ts ih =>
    intro output final hall hrun
    have hts : ∀ u ∈ ts, isNumberToken (stripSign u) = true
        ∨ (opOfAlias h (stripSign u)).isSome = true :=
      fun u hu => hall u (List.mem_cons_of_mem t hu)
    rw [runTokens] at hrun
    cases hnum : isNumberToken (stripSign t) with
    | true =>
      rw [processToken_number h output t hnum] at hrun
      have := ih _ final hts hrun
      have hcount : numberCount (t :: ts) = numberCount ts + 1 := by
        simp [numberCount, List.countP_cons, hnum]
      have hexcess : arityExcess h (t :: ts) = arityExcess h ts := by
        simp only [arityExcess, hnum, if_true, zero_add]
      rw [this, List.length_append, List.length_singleton, hcount, hexcess]
      push_cast
      ring
    | false =>
      have hsome : (opOfAlias h (stripSign t)).isSome = true := by
        rcases hall t (List.mem_cons_self t ts) with hn | hs
        · rw [hnum] at hn
          cases hn
        · exact hs
      obtain ⟨op, hop⟩ := Option.isSome_iff_exists.mp hsome
      rw [processToken_op h output t op hnum (findOp_of_opOfAlias h _ op hop)] at hrun
      cases hstep : applyOp op output with
      | error e =>
        rw [hstep] at hrun
        cases hrun
      | ok next =>
        rw [hstep] at hrun
        obtain ⟨_, hlen⟩ := applyOp_length op output next hstep
        have := ih next final hts hrun
        rw [this]
        have hcount : numberCount (t :: ts) = numberCount ts := by
          simp [numberCount, List.countP_cons, hnum]
        have hexcess : arityExcess h (t :: ts) = ((op.args : ℤ) - 1) + arityExcess h ts := by
          simp only [arityExcess, hnum, hop, Bool.false_eq_true, if_false]
        rw [hcount, hexcess]
        omega

/-- C2: an operator token whose operator takes n values, met on a stack whose top n values are
args, with the operator function succeeding on args in the order they were pushed: the new
stack is the part below, unchanged, followed by the one result. -/
theorem operator_step (h : Host) (below args : List JSNum) (char : String) (thisOp : MathOp)
    (v : JSNum)
    (hnum : isNumberToken (stripSign char) = false)
    (hop : findOp h (stripSign char) = some thisOp)
    (hlen : args.length = thisOp.args)
    (hfun : thisOp.func args = .ok v) :
    processToken h (below ++ args) char = .ok (below ++ [v]) := by
  rw [processToken_op h _ char thisOp hnum hop]
  exact applyOp_ok thisOp below args v hlen hfun

/-- Witness of C2: on the stack 9, 5, 3 the token "-" leaves 9, 2 (5 - 3, not 3 - 5). -/
theorem operator_step_witness :
    processToken Host.exact ([JSNum.fin 9] ++ [JSNum.fin 5, JSNum.fin 3]) "-"
      = .ok ([JSNum.fin 9] ++ [JSNum.fin 2]) :=
  operator_step Host.exact [JSNum.fin 9] [JSNum.fin 5, JSNum.fin 3] "-"
    ⟨"subtraction", .str "-", 2, binary fun a b => .ok (a.sub b)⟩ (JSNum.fin 2)
    (by decide) (by with_unfolding_all rfl) rfl (by decide!)

/-- C4: an operator token met on a stack of k values, k below the arity, ends the evaluation
with the MathError "cannot perform {opName} operation on {k} values", whatever the operator
function is; with k at least the arity the token never yields an error of that form. -/
theorem too_few_values (h : Host) (output : List JSNum) (char : String) (thisOp : MathOp)
    (hnum : isNumberToken (stripSign char) = false)
    (hop : findOp h (stripSign char) = some thisOp) :
    (output.length < thisOp.args →
      processToken h output char = .error (.MathError ("cannot perform " ++ thisOp.opName
        ++ " operation on " ++ toString output.length ++ " values"))
      ∧ (∀ rest, runTokens h output (char :: rest) = .error (.MathError ("cannot perform "
          ++ thisOp.opName ++ " operation on " ++ toString output.length ++ " values")))
      ∧ (∀ f, applyOp ⟨thisOp.opName, thisOp.symbol, thisOp.args, f⟩ output
          = .error (.MathError ("cannot perform " ++ thisOp.opName
            ++ " operation on " ++ toString output.length ++ " values"))))
    ∧ (thisOp.args ≤ output.length → ∀ (name : String) (k : ℕ),
        processToken h output char ≠ .error (.MathError ("cannot perform " ++ name
          ++ " operation on " ++ toString k ++ " values"))) := by
  have hstep := processToken_op h output char thisOp hnum hop
  constructor
  · intro hlen
    have herr := applyOp_short thisOp output hlen
    refine ⟨hstep.trans herr, ?_, ?_⟩
    · intro rest
      rw [runTokens, hstep, herr]
    · intro f
      exact applyOp_short ⟨thisOp.opName, thisOp.symbol, thisOp.args, f⟩ output hlen
  · intro hlen name k hbad
    rw [hstep, applyOp, if_neg (by omega)] at hbad
    cases hf : thisOp.func (output.drop (output.length - thisOp.args)) with
    | ok v =>
      rw [hf] at hbad
      cases hbad
    | error e =>
      rw [hf] at hbad
      obtain ⟨m, hm, hhead⟩ :=
        func_error_head h thisOp (List.mem_of_find?_eq_some hop) _ e hf
      apply hhead
      have hmsg : e = .MathError ("cannot perform " ++ name ++ " operation on "
          ++ toString k ++ " values") := by
        injection hbad
      rw [hm] at hmsg
      injection hmsg with hmsg
      rw [hmsg]
      exact arity_message_head name k

/-- Witness of C4: "+" on a stack of one value. -/
theorem too_few_values_witness :
    processToken Host.exact [JSNum.fin 1] "+"
      = .error (.MathError ("cannot perform " ++ "addition" ++ " operation on "
          ++ toString 1 ++ " values")) :=
  ((too_few_values Host.exact [JSNum.fin 1] "+"
    ⟨"addition", .str "+", 2, binary fun a b => .ok (a.add b)⟩
    (by decide) (by with_unfolding_all rfl)).1 (by decide)).1

/-- C3: when every token is a number token or an operator alias and doTheMath succeeds, the
length of the returned stack is the number of number tokens minus the sum of arity - 1 over the
operator tokens. -/
theorem stack_depth (h : Host) (input : String) (stack : List JSNum)
    (hall : ∀ t ∈ tokenize input, isNumberToken (stripSign t) = true
      ∨ (opOfAlias h (stripSign t)).isSome = true)
    (hrun : doTheMath h input = .ok stack) :
    (stack.length : ℤ) = numberCount (tokenize input) - arityExcess h (tokenize input) := by
  have := runTokens_depth h (tokenize input) [] stack hall hrun
  simpa using this

/-- Witness of C3 on "2 3 4 + *": three numbers, two binary operators, one value left. -/
theorem stack_depth_witness :
    (([JSNum.fin 14] : List JSNum).length : ℤ)
      = numberCount (tokenize "2 3 4 + *") - arityExcess Host.exact (tokenize "2 3 4 + *") :=
  stack_depth Host.exact "2 3 4 + *" [JSNum.fin 14] (by decide) (by decide!)

/-- C5, as it fails: the message carries the token without its sign ("-foo" is reported as
"bad token foo"), and the comma-joined alias list "*,×,x", which is no alias, is taken for the
multiplication operator and fails with a MathError. -/
theorem bad_token_counterexample :
    doTheMath Host.exact "-foo" = .error (.ParseError "bad token foo")
    ∧ doTheMath Host.exact "-foo" ≠ .error (.ParseError ("bad token " ++ "-foo"))
    ∧ doTheMath Host.exact "*,×,x"
        = .error (.MathError "cannot perform multiplication operation on 0 values") := by
  decide!

/-- C5, amended: when the tokens before t are processed and t, behind its sign if any, is
neither digits and dots, nor an operator alias, nor the comma-joined alias list of an operator,
nor a constant alias, doTheMath fails with the ParseError "bad token " followed by t without
its sign, whatever tokens follow. -/
theorem bad_token_parse_error (h : Host) (input : String) (before after : List String)
    (t : String) (output : List JSNum)
    (htok : tokenize input = before ++ t :: after)
    (hbefore : runTokens h [] before = .ok output)
    (hnum : isNumberToken (stripSign t) = false)
    (hop : ∀ op ∈ MATH_OPS h, stripSign t ∉ op.symbol.aliases)
    (hjoin : stripSign t ∉ joinedAliasLists h)
    (hconst : ∀ c ∈ MATH_CONSTANTS, stripSign t ∉ c.symbols) :
    doTheMath h input = .error (.ParseError ("bad token " ++ stripSign t)) := by
  rw [doTheMath, htok, runTokens_append, hbefore]
  simp only [runTokens, processToken, hnum, findOp_none h _ hop hjoin,
    findConstant_none _ hconst, Bool.false_eq_true, if_false]

/-- Witness of the amended C5 on "1 -foo 2". -/
theorem bad_token_parse_error_witness :
    doTheMath Host.exact "1 -foo 2" = .error (.ParseError ("bad token " ++ stripSign "-foo")) :=
  bad_token_parse_error Host.exact "1 -foo 2" ["1"] ["2"] "-foo" [JSNum.fin 1]
    (by decide) (by decide!) (by decide) (by decide) (by decide) (by decide)

/-! ## Postfix forms of expression trees -/

theorem JSNum.mul_one_fin (x : JSNum) : x.mul (JSNum.fin 1) = x := by
  cases x <;> simp [JSNum.mul, JSNum.infWithSign]

theorem splitSpaces_of_no_space (t : List Char) (ht : ' ' ∉ t) : splitSpaces t = [t] := by
  induction t with
  | nil => rfl
  | cons c cs ih =>
    have hc : c ≠ ' ' := fun hc => ht (hc ▸ List.mem_cons_self c cs)
    have hcs : ' ' ∉ cs := fun hmem => ht (List.mem_cons_of_mem c hmem)
    simp only [splitSpaces, hc, if_false, ih hcs]

theorem splitSpaces_append_space (t rest : List Char) (ht : ' ' ∉ t) :
    splitSpaces (t ++ ' ' :: rest) = t :: splitSpaces rest := by
  induction t with
  | nil => simp [splitSpaces]
  | cons c cs ih =>
    have hc : c ≠ ' ' := fun hc => ht (hc ▸ List.mem_cons_self c cs)
    have hcs : ' ' ∉ cs := fun hmem => ht (List.mem_cons_of_mem c hmem)
    simp only [List.cons_append, splitSpaces, hc, if_false, List.append_eq, ih hcs]

theorem splitSpaces_joinChars (ts : List (List Char)) (hne : ts ≠ [])
    (hts : ∀ t ∈ ts, ' ' ∉ t) : splitSpaces (joinChars ts) = ts := by
  induction ts with
  | nil => exact absurd rfl hne
  | cons t rest ih =>
    cases rest with
    | nil => exact splitSpaces_of_no_space t (hts t (List.mem_cons_self t []))
    | cons u us =>
      rw [joinChars, splitSpaces_append_space t _ (hts t (List.mem_cons_self t _)),
        ih (List.cons_ne_nil u us) (fun x hx => hts x (List.mem_cons_of_mem t hx))]

theorem tokenize_joinSpaces (tokens : List String) (hne : tokens ≠ [])
    (hts : ∀ t ∈ tokens, ' ' ∉ t.data) : tokenize (joinSpaces tokens) = tokens := by
  have hne' : tokens.map String.data ≠ [] := by
    intro hnil
    exact hne (List.map_eq_nil_iff.mp hnil)
  have hts' : ∀ t ∈ tokens.map String.data, ' ' ∉ t := by
    intro t ht
    obtain ⟨s, hs, rfl⟩ := List.mem_map.mp ht
    exact hts s hs
  simp only [tokenize, joinSpaces, splitSpaces_joinChars _ hne' hts', List.map_map]
  conv_rhs => rw [← List.map_id tokens]
  apply List.map_congr_left
  intro s _
  rfl

theorem hasSign_of_isNumberToken (token : String) (hnum : isNumberToken token = true) :
    hasSign token = false := by
  unfold hasSign
  unfold isNumberToken at hnum
  cases hd : token.data with
  | nil => rfl
  | cons c cs =>
    cases cs with
    | nil => rfl
    | cons d ds =>
      rw [hd, List.all_cons, Bool.and_eq_true] at hnum
      have hc := hnum.1
      show (c == '-') = false
      apply beq_false_of_ne
      rintro rfl
      revert hc
      decide

theorem stripSign_of_not_hasSign (token : String) (hs : hasSign token = false) :
    stripSign token = token ∧ signFactor token = JSNum.fin 1 := by
  simp [stripSign, signFactor, hs]

theorem no_space_of_isNumberToken (token : String) (hnum : isNumberToken token = true) :
    ' ' ∉ token.data := by
  intro hmem
  unfold isNumberToken at hnum
  have := List.all_eq_true.mp hnum ' ' hmem
  revert this
  decide

theorem processToken_plain_number (h : Host) (output : List JSNum) (token : String)
    (hnum : isNumberToken token = true) :
    processToken h output token = .ok (output ++ [Number token]) := by
  obtain ⟨hstrip, hfac⟩ := stripSign_of_not_hasSign token (hasSign_of_isNumberToken token hnum)
  have hnum' : isNumberToken (stripSign token) = true := by rw [hstrip]; exact hnum
  rw [processToken_number h output token hnum', hstrip, hfac, JSNum.mul_one_fin]

theorem isNumberToken_of_isDecimalLiteral (lit : String) (hlit : isDecimalLiteral lit = true) :
    isNumberToken lit = true := by
  unfold isDecimalLiteral at hlit
  simp only [Bool.and_eq_true] at hlit
  exact hlit.1.1

theorem processToken_alias (h : Host) (output : List JSNum) (op : MathOp) (sym : String)
    (hop : op ∈ MATH_OPS h) (hsym : sym ∈ op.symbol.aliases) :
    processToken h output sym = applyOp op output := by
  obtain ⟨hs, hnum, hfind, _⟩ := alias_lookup h op sym hop hsym
  obtain ⟨hstrip, _⟩ := stripSign_of_not_hasSign sym hs
  exact processToken_op h output sym op (by rw [hstrip]; exact hnum) (by rw [hstrip]; exact hfind)

theorem valueList_length (ts : List Expr) (vs : List JSNum) (hv : valueList ts = .ok vs) :
    vs.length = ts.length := by
  induction ts generalizing vs with
  | nil =>
    simp only [valueList] at hv
    cases hv
    rfl
  | cons t rest ih =>
    simp only [valueList] at hv
    cases ht : t.value with
    | error e => rw [ht] at hv; cases hv
    | ok v =>
      rw [ht] at hv
      cases hr : valueList rest with
      | error e => rw [hr] at hv; cases hv
      | ok ws =>
        rw [hr] at hv
        cases hv
        simp [ih ws hr]

mutual
theorem runTokens_postfixForm (h : Host) :
    ∀ (t : Expr) (v : JSNum), t.WellFormed h → t.value = .ok v →
      ∀ (output : List JSNum) (rest : List String),
        runTokens h output (t.postfixForm ++ rest) = runTokens h (output ++ [v]) rest
  | Expr.num lit, v, hwf, hval, output, rest => by
    simp only [Expr.WellFormed] at hwf
    simp only [Expr.value] at hval
    cases hval
    simp only [Expr.postfixForm, List.singleton_append, runTokens, List.append_eq, List.nil_append,
      processToken_plain_number h output lit (isNumberToken_of_isDecimalLiteral lit hwf)]
  | Expr.node op sym args, v, hwf, hval, output, rest => by
    simp only [Expr.WellFormed] at hwf
    obtain ⟨hop, hsym, hlen, hargs⟩ := hwf
    simp only [Expr.value] at hval
    cases hvs : valueList args with
    | error e => rw [hvs] at hval; cases hval
    | ok vs =>
      rw [hvs] at hval
      have hrun := runTokens_postfixFormList h args vs hargs hvs output (sym :: rest)
      have hvlen : vs.length = op.args := (valueList_length args vs hvs).trans hlen
      simp only [Expr.postfixForm, List.append_assoc, List.singleton_append, hrun, runTokens,
        processToken_alias h _ op sym hop hsym, applyOp_ok op output vs v hvlen hval]
theorem runTokens_postfixFormList (h : Host) :
    ∀ (ts : List Expr) (vs : List JSNum), wellFormedList h ts → valueList ts = .ok vs →
      ∀ (output : List JSNum) (rest : List String),
        runTokens h output (postfixFormList ts ++ rest) = runTokens h (output ++ vs) rest
  | [], vs, _, hval, output, rest => by
    simp only [valueList] at hval
    cases hval
    simp [postfixFormList]
  | t :: ts, vs, hwf, hval, output, rest => by
    simp only [wellFormedList] at hwf
    simp only [valueList] at hval
    cases ht : t.value with
    | error e => rw [ht] at hval; cases hval
    | ok v =>
      rw [ht] at hval
      cases hr : valueList ts with
      | error e => rw [hr] at hval; cases hval
      | ok ws =>
        rw [hr] at hval
        cases hval
        simp only [postfixFormList, List.append_assoc,
          runTokens_postfixForm h t v hwf.1 ht output (postfixFormList ts ++ rest),
          runTokens_postfixFormList h ts ws hwf.2 hr (output ++ [v]) rest, List.singleton_append]
end

mutual
theorem postfixForm_no_space (h : Host) :
    ∀ (t : Expr), t.WellFormed h → ∀ s ∈ t.postfixForm, ' ' ∉ s.data
  | Expr.num lit, hwf, s, hs => by
    simp only [Expr.WellFormed] at hwf
    simp only [Expr.postfixForm, List.mem_singleton] at hs
    subst hs
    exact no_space_of_isNumberToken s (isNumberToken_of_isDecimalLiteral s hwf)
  | Expr.node op sym args, hwf, s, hs => by
    simp only [Expr.WellFormed] at hwf
    obtain ⟨hop, hsym, _, hargs⟩ := hwf
    simp only [Expr.postfixForm, List.mem_append, List.mem_singleton] at hs
    rcases hs with hs | rfl
    · exact postfixFormList_no_space h args hargs s hs
    · exact (alias_lookup h op s hop hsym).2.2.2
theorem postfixFormList_no_space (h : Host) :
    ∀ (ts : List Expr), wellFormedList h ts → ∀ s ∈ postfixFormList ts, ' ' ∉ s.data
  | [], _, s, hs => by
    simp [postfixFormList] at hs
  | t :: ts, hwf, s, hs => by
    simp only [wellFormedList] at hwf
    simp only [postfixFormList, List.mem_append] at hs
    rcases hs with hs | hs
    · exact postfixForm_no_space h t hwf.1 s hs
    · exact postfixFormList_no_space h ts hwf.2 s hs
end

theorem postfixForm_ne_nil (t : Expr) : t.postfixForm ≠ [] := by
  cases t <;> simp [Expr.postfixForm]

/-- C1: for a tree whose leaves are decimal literals and whose nodes are operators of the table
with as many children as their arity, if the bottom-up value of the tree is v (no operator
application fails), doTheMath on the space-joined postfix form returns the stack holding v
alone. -/
theorem postfixForm_evaluates_to_value (h : Host) (t : Expr) (v : JSNum)
    (hwf : t.WellFormed h) (hval : t.value = .ok v) :
    doTheMath h (joinSpaces t.postfixForm) = .ok [v] := by
  rw [doTheMath, tokenize_joinSpaces _ (postfixForm_ne_nil t) (postfixForm_no_space h t hwf)]
  have := runTokens_postfixForm h t v hwf hval [] []
  simpa [runTokens] using this

/-- Witness of C1: the tree of 2 * (3 + 4), whose postfix form is "2 3 4 + *", gives 14. -/
theorem postfixForm_evaluates_to_value_witness :
    doTheMath Host.exact (joinSpaces
      (Expr.node ⟨"multiplication", .arr ["*", "×", "x"], 2, binary (multiplication Host.exact)⟩
        "*" [Expr.num "2", Expr.node ⟨"addition", .str "+", 2, binary fun a b => .ok (a.add b)⟩
        "+" [Expr.num "3", Expr.num "4"]]).postfixForm) = .ok [JSNum.fin 14] :=
  postfixForm_evaluates_to_value Host.exact _ (JSNum.fin 14)
    (by simp [Expr.WellFormed, wellFormedList, MATH_OPS, Symbol.aliases]; decide)
    (by decide!)

/-! ## Signs, constants and the frame of the stack -/

theorem JSNum.mul_neg_one_fin (x : JSNum) : x.mul (JSNum.fin (-1)) = x.neg := by
  cases x <;> simp [JSNum.mul, JSNum.neg, JSNum.infWithSign]

theorem sign_token (r : String) (hr : r.data ≠ []) :
    hasSign ("-" ++ r) = true ∧ stripSign ("-" ++ r) = r
      ∧ signFactor ("-" ++ r) = JSNum.fin (-1) := by
  have hdata : ("-" ++ r).data = '-' :: r.data := by
    rw [String.data_append]
    rfl
  have hs : hasSign ("-" ++ r) = true := by
    unfold hasSign
    rw [hdata]
    cases hd : r.data with
    | nil => exact absurd hd hr
    | cons c cs => rfl
  refine ⟨hs, ?_, ?_⟩
  · simp only [stripSign, hs, if_true, hdata, List.drop_succ_cons, List.drop_zero]
  · simp only [signFactor, hs, if_true]

theorem data_ne_nil_of_not_number (token : String) (hnum : isNumberToken token = false) :
    token.data ≠ [] := by
  intro hnil
  unfold isNumberToken at hnum
  rw [hnil] at hnum
  simp at hnum

theorem constant_lookup (h : Host) (c : MathConstant) (a : String)
    (hc : c ∈ MATH_CONSTANTS) (ha : a ∈ c.symbols) :
    hasSign a = false ∧ isNumberToken a = false ∧ findOp h a = none
      ∧ findConstant a = some c := by
  simp only [MATH_CONSTANTS, List.mem_cons, List.mem_singleton, List.not_mem_nil, or_false]
    at hc
  rcases hc with rfl | rfl | rfl | rfl | rfl <;>
  simp only [List.mem_cons, List.mem_singleton, List.not_mem_nil, or_false] at ha <;>
  (try rcases ha with rfl | rfl) <;>
  exact ⟨by decide, by decide, by with_unfolding_all rfl, by with_unfolding_all rfl⟩

theorem processToken_constant (h : Host) (output : List JSNum) (char : String)
    (c : MathConstant)
    (hnum : isNumberToken (stripSign char) = false)
    (hop : findOp h (stripSign char) = none)
    (hconst : findConstant (stripSign char) = some c) :
    processToken h output char = .ok (output ++ [c.value.mul (signFactor char)]) := by
  simp only [processToken, hnum, hop, hconst, Bool.false_eq_true, if_false]

theorem pushes_and_negation (h : Host) (output : List JSNum) (r : String)
    (hr : r.data ≠ [])
    (hkind : isNumberToken r = true ∨ ∃ c ∈ MATH_CONSTANTS, r ∈ c.symbols) :
    ∃ v, processToken h output r = .ok (output ++ [v])
      ∧ processToken h output ("-" ++ r) = .ok (output ++ [v.neg]) := by
  obtain ⟨_, hstrip, hfac⟩ := sign_token r hr
  rcases hkind with hnum | ⟨c, hc, ha⟩
  · refine ⟨Number r, processToken_plain_number h output r hnum, ?_⟩
    rw [processToken_number h output _ (by rw [hstrip]; exact hnum), hstrip, hfac,
      JSNum.mul_neg_one_fin]
  · obtain ⟨hs, hnum, hop, hfind⟩ := constant_lookup h c r hc ha
    obtain ⟨hstrip0, hfac0⟩ := stripSign_of_not_hasSign r hs
    refine ⟨c.value, ?_, ?_⟩
    · rw [processToken_constant h output r c (by rw [hstrip0]; exact hnum)
        (by rw [hstrip0]; exact hop) (by rw [hstrip0]; exact hfind), hfac0,
        JSNum.mul_one_fin]
    · rw [processToken_constant h output _ c (by rw [hstrip]; exact hnum)
        (by rw [hstrip]; exact hop) (by rw [hstrip]; exact hfind), hfac,
        JSNum.mul_neg_one_fin]

theorem popN_frame (n : ℕ) (above below : List JSNum) (hn : n ≤ below.length) :
    popN n (above ++ below) = above ++ popN n below := by
  induction n generalizing below with
  | zero => rfl
  | succ k ih =>
    have hne : below ≠ [] := by
      intro hnil
      rw [hnil] at hn
      simp at hn
    rw [popN, popN, List.dropLast_append_of_ne_nil _ hne]
    apply ih
    rw [List.length_dropLast]
    omega

theorem applyOp_frame (thisOp : MathOp) (above output result : List JSNum)
    (hok : applyOp thisOp output = .ok result) :
    applyOp thisOp (above ++ output) = .ok (above ++ result) := by
  unfold applyOp at hok
  split at hok
  · cases hok
  · rename_i hlen
    have hlen' : thisOp.args ≤ output.length := by omega
    have hnot : ¬ (above ++ output).length < thisOp.args := by
      rw [List.length_append]
      omega
    have hdrop : (above ++ output).drop ((above ++ output).length - thisOp.args)
        = output.drop (output.length - thisOp.args) := by
      have : (above ++ output).length - thisOp.args
          = above.length + (output.length - thisOp.args) := by
        rw [List.length_append]
        omega
      rw [this, List.drop_append]
    rw [applyOp, if_neg hnot, hdrop]
    split at hok
    · cases hok
    · rename_i v hv
      cases hok
      simp only [hv, popN_frame _ above output hlen', List.append_assoc]

theorem processToken_frame (h : Host) (above output result : List JSNum) (char : String)
    (hok : processToken h output char = .ok result) :
    processToken h (above ++ output) char = .ok (above ++ result) := by
  cases hnum : isNumberToken (stripSign char) with
  | true =>
    rw [processToken_number h _ char hnum] at hok ⊢
    cases hok
    rw [List.append_assoc]
  | false =>
    cases hop : findOp h (stripSign char) with
    | some op =>
      rw [processToken_op h _ char op hnum hop] at hok ⊢
      exact applyOp_frame op above output result hok
    | none =>
      cases hconst : findConstant (stripSign char) with
      | some c =>
        rw [processToken_constant h _ char c hnum hop hconst] at hok ⊢
        cases hok
        rw [List.append_assoc]
      | none =>
        simp only [processToken, hnum, hop, hconst, Bool.false_eq_true, if_false] at hok
        cases hok

theorem runTokens_frame (h : Host) (above : List JSNum) (tokens : List String) :
    ∀ output result : List JSNum, runTokens h output tokens = .ok result →
      runTokens h (above ++ output) tokens = .ok (above ++ result) := by
  induction tokens with
  | nil =>
    intro output result hok
    simp only [runTokens] at hok ⊢
    cases hok
    rfl
  | cons t ts ih =>
    intro output result hok
    rw [runTokens] at hok ⊢
    cases hstep : processToken h output t with
    | error e => rw [hstep] at hok; cases hok
    | ok next =>
      rw [hstep] at hok
      rw [processToken_frame h above output next t hstep]
      exact ih next result hok

theorem runTokens_numbers (h : Host) (p : List String)
    (hp : ∀ x ∈ p, isNumberToken (stripSign x) = true) :
    ∀ output : List JSNum, runTokens h output p = .ok (output ++ p.map pushedValue) := by
  induction p with
  | nil =>
    intro output
    simp [runTokens]
  | cons x xs ih =>
    intro output
    simp only [runTokens, processToken_number h output x (hp x (List.mem_cons_self x xs)),
      ih (fun y hy => hp y (List.mem_cons_of_mem x hy)), List.map_cons, pushedValue,
      List.append_assoc, List.singleton_append]

theorem doTheMath_single (h : Host) (t : String) (htok : tokenize t = [t]) :
    doTheMath h t = processToken h [] t := by
  rw [doTheMath, htok, runTokens]
  cases processToken h [] t <;> rfl

theorem format_of_constant (h : Host) (v : JSNum) (c : MathConstant)
    (hfind : MATH_CONSTANTS.find? (fun k => JSNum.eq v k.value) = some c) :
    formatMathematicalNumber h v = c.name := by
  simp only [formatMathematicalNumber, hfind]

theorem format_of_neg_constant (h : Host) (v : JSNum) (c : MathConstant)
    (hnone : MATH_CONSTANTS.find? (fun k => JSNum.eq v k.value) = none)
    (hfind : MATH_CONSTANTS.find? (fun k => JSNum.eq v (JSNum.neg k.value)) = some c) :
    formatMathematicalNumber h v = "-" ++ c.name := by
  simp only [formatMathematicalNumber, hnone, hfind]

theorem constant_facts (h : Host) (c : MathConstant) (hc : c ∈ MATH_CONSTANTS) :
    formatMathematicalNumber h c.value = c.name
    ∧ formatMathematicalNumber h c.value.neg = "-" ++ c.name
    ∧ c.name ∈ c.symbols
    ∧ (∀ a ∈ c.symbols, a.data ≠ [] ∧ tokenize a = [a] ∧ tokenize ("-" ++ a) = ["-" ++ a])
    ∧ (∀ d ∈ MATH_CONSTANTS, d.name = c.name → d = c) := by
  simp only [MATH_CONSTANTS, List.mem_cons, List.mem_singleton, List.not_mem_nil, or_false]
    at hc
  rcases hc with rfl | rfl | rfl | rfl | rfl <;>
  exact ⟨format_of_constant h _ _ (by decide!),
    format_of_neg_constant h _ _ (by decide!) (by decide!), by decide, by decide, by decide!⟩

theorem constant_alias_runs (h : Host) (c : MathConstant) (a : String)
    (hc : c ∈ MATH_CONSTANTS) (ha : a ∈ c.symbols) :
    doTheMath h a = .ok [c.value] ∧ doTheMath h ("-" ++ a) = .ok [c.value.neg] := by
  obtain ⟨_, _, _, htoks, _⟩ := constant_facts h c hc
  obtain ⟨hne, htok, htok'⟩ := htoks a ha
  obtain ⟨_, hstrip, hfac⟩ := sign_token a hne
  obtain ⟨hs, hnum, hop, hfind⟩ := constant_lookup h c a hc ha
  obtain ⟨hstrip0, hfac0⟩ := stripSign_of_not_hasSign a hs
  constructor
  · rw [doTheMath_single h a htok, processToken_constant h [] a c (by rw [hstrip0]; exact hnum)
      (by rw [hstrip0]; exact hop) (by rw [hstrip0]; exact hfind), hfac0, JSNum.mul_one_fin]
    rfl
  · rw [doTheMath_single h _ htok', processToken_constant h [] _ c (by rw [hstrip]; exact hnum)
      (by rw [hstrip]; exact hop) (by rw [hstrip]; exact hfind), hfac, JSNum.mul_neg_one_fin]
    rfl

/-- C11: a token "-" followed by a non-empty remainder that is a number token or a constant
alias pushes the negation of the value the remainder alone pushes; the token "-" alone is the
subtraction operator. -/
theorem sign_negates_pushed_value (h : Host) (output : List JSNum) (r : String)
    (hr : r.data ≠ [])
    (hkind : isNumberToken r = true ∨ ∃ c ∈ MATH_CONSTANTS, r ∈ c.symbols) :
    (∃ v, processToken h output r = .ok (output ++ [v])
      ∧ processToken h output ("-" ++ r) = .ok (output ++ [v.neg]))
    ∧ processToken h output "-"
        = applyOp ⟨"subtraction", .str "-", 2, binary fun a b => .ok (a.sub b)⟩ output :=
  ⟨pushes_and_negation h output r hr hkind,
    processToken_op h output "-" _ (by decide) (by with_unfolding_all rfl)⟩

/-- Witness of C11: "-5" pushes the negation of what "5" pushes. -/
theorem sign_negates_pushed_value_witness :
    (∃ v, processToken Host.exact [] "5" = .ok ([] ++ [v])
      ∧ processToken Host.exact [] ("-" ++ "5") = .ok ([] ++ [v.neg]))
    ∧ processToken Host.exact [] "-"
        = applyOp ⟨"subtraction", .str "-", 2, binary fun a b => .ok (a.sub b)⟩ [] :=
  sign_negates_pushed_value Host.exact [] "5" (by decide) (Or.inl (by decide))

/-- C12: every alias of a constant evaluates to the value that is displayed under the
canonical name of the constant, the alias behind "-" to the value displayed as "-" and the
name, and two constants of the table with the same name are the same constant. -/
theorem constant_display (h : Host) (c : MathConstant) (a : String)
    (hc : c ∈ MATH_CONSTANTS) (ha : a ∈ c.symbols) :
    doTheMath h a = .ok [c.value]
    ∧ formatMathematicalNumber h c.value = c.name
    ∧ doTheMath h ("-" ++ a) = .ok [c.value.neg]
    ∧ formatMathematicalNumber h c.value.neg = "-" ++ c.name
    ∧ (∀ d ∈ MATH_CONSTANTS, d.name = c.name → d = c) := by
  obtain ⟨hf, hfneg, _, _, hinj⟩ := constant_facts h c hc
  obtain ⟨hrun, hrunneg⟩ := constant_alias_runs h c a hc ha
  exact ⟨hrun, hf, hrunneg, hfneg, hinj⟩

/-- Witness of C12: "pi" is displayed as "π" and "-pi" as "-π". -/
theorem constant_display_witness :
    formatMathematicalNumber Host.exact (JSNum.fin (884279719003555 / 2 ^ 48)) = "π"
    ∧ doTheMath Host.exact ("-" ++ "pi") = .ok [(JSNum.fin (884279719003555 / 2 ^ 48)).neg]
    ∧ formatMathematicalNumber Host.exact (JSNum.fin (884279719003555 / 2 ^ 48)).neg
        = "-" ++ "π" :=
  have hw := constant_display Host.exact ⟨"π", ["pi", "π"], JSNum.fin (884279719003555 / 2 ^ 48)⟩
    "pi" (by simp [MATH_CONSTANTS]) (by simp)
  ⟨hw.2.1, hw.2.2.1, hw.2.2.2.1⟩

/-- C13: when the formatted text of a value is a constant form (the name of a constant, or "-"
and the name), doTheMath on that text yields one value, and formatting it gives the same
text. -/
theorem format_constant_form_idempotent (h : Host) (v : JSNum)
    (hform : ∃ c ∈ MATH_CONSTANTS, formatMathematicalNumber h v = c.name
      ∨ formatMathematicalNumber h v = "-" ++ c.name) :
    ∃ w, doTheMath h (formatMathematicalNumber h v) = .ok [w]
      ∧ formatMathematicalNumber h w = formatMathematicalNumber h v := by
  obtain ⟨c, hc, hform⟩ := hform
  obtain ⟨hf, hfneg, hname, _, _⟩ := constant_facts h c hc
  obtain ⟨hrun, hrunneg⟩ := constant_alias_runs h c c.name hc hname
  rcases hform with hv | hv
  · exact ⟨c.value, by rw [hv]; exact hrun, by rw [hv]; exact hf⟩
  · exact ⟨c.value.neg, by rw [hv]; exact hrunneg, by rw [hv]; exact hfneg⟩

/-- Witness of C13 on the value of τ. -/
theorem format_constant_form_idempotent_witness :
    ∃ w, doTheMath Host.exact
        (formatMathematicalNumber Host.exact (JSNum.fin (884279719003555 / 2 ^ 47))) = .ok [w]
      ∧ formatMathematicalNumber Host.exact w
        = formatMathematicalNumber Host.exact (JSNum.fin (884279719003555 / 2 ^ 47)) :=
  format_constant_form_idempotent Host.exact (JSNum.fin (884279719003555 / 2 ^ 47))
    ⟨⟨"τ", ["tau", "τ"], JSNum.fin (884279719003555 / 2 ^ 47)⟩, by simp [MATH_CONSTANTS],
      Or.inl (by decide!)⟩

/-- C19: when doTheMath succeeds on the tokens of an input with the stack r, it succeeds on
these tokens behind a run p of number tokens with the values of p followed by r. -/
theorem frame_below_stack (h : Host) (input longer : String) (p : List String)
    (r : List JSNum)
    (hp : ∀ x ∈ p, isNumberToken (stripSign x) = true)
    (htok : tokenize longer = p ++ tokenize input)
    (hrun : doTheMath h input = .ok r) :
    doTheMath h longer = .ok (p.map pushedValue ++ r) := by
  rw [doTheMath, htok, runTokens_append, runTokens_numbers h p hp []]
  have := runTokens_frame h (p.map pushedValue) (tokenize input) [] r hrun
  simpa using this

/-- Witness of C19: "7 8" in front of "1 2 +". -/
theorem frame_below_stack_witness :
    doTheMath Host.exact "7 8 1 2 +" = .ok (["7", "8"].map pushedValue ++ [JSNum.fin 3]) :=
  frame_below_stack Host.exact "1 2 +" "7 8 1 2 +" ["7", "8"] [JSNum.fin 3]
    (by decide) (by decide) (by decide!)

/-- C20: "-" in front of an operator alias changes nothing: the token is processed as the alias
alone is, on every stack. -/
theorem sign_before_operator_ignored (h : Host) (op : MathOp) (a : String)
    (output : List JSNum) (hop : op ∈ MATH_OPS h) (ha : a ∈ op.symbol.aliases) :
    processToken h output ("-" ++ a) = processToken h output a
    ∧ processToken h output ("-" ++ a) = applyOp op output := by
  obtain ⟨_, hnum, hfind, _⟩ := alias_lookup h op a hop ha
  obtain ⟨_, hstrip, _⟩ := sign_token a (data_ne_nil_of_not_number a hnum)
  have hsigned : processToken h output ("-" ++ a) = applyOp op output :=
    processToken_op h output _ op (by rw [hstrip]; exact hnum) (by rw [hstrip]; exact hfind)
  exact ⟨hsigned.trans (processToken_alias h output op a hop ha).symm, hsigned⟩

/-- Witness of C20: "-+" on the stack 5, 3 gives 8, as "+" does. -/
theorem sign_before_operator_ignored_witness :
    processToken Host.exact [JSNum.fin 5, JSNum.fin 3] ("-" ++ "+")
      = processToken Host.exact [JSNum.fin 5, JSNum.fin 3] "+" :=
  (sign_before_operator_ignored Host.exact
    ⟨"addition", .str "+", 2, binary fun a b => .ok (a.add b)⟩ "+"
    [JSNum.fin 5, JSNum.fin 3] (by simp [MATH_OPS]) (by simp [Symbol.aliases])).1

/-! ## Empty tokens, the displayed text and the case of letters -/

theorem nil_mem_tail_splitSpaces (a b : List Char) :
    [] ∈ (splitSpaces (a ++ ' ' :: ' ' :: b)).tail := by
  induction a with
  | nil => simp [splitSpaces]
  | cons c cs ih =>
    by_cases hc : c = ' '
    · simp only [List.cons_append, splitSpaces, hc, if_true, List.tail_cons]
      exact List.mem_of_mem_tail ih
    · simp only [List.cons_append, splitSpaces, hc, if_false]
      cases hrest : splitSpaces (cs ++ ' ' :: ' ' :: b) with
      | nil =>
        rw [hrest] at ih
        simp at ih
      | cons t ts =>
        rw [hrest] at ih
        simpa using ih

theorem processToken_empty (h : Host) (output : List JSNum) :
    processToken h output "" = .ok (output ++ [JSNum.fin 0]) := by
  rw [processToken_plain_number h output "" (by decide)]
  rfl

theorem func_error_nonempty (h : Host) (op : MathOp) (hop : op ∈ MATH_OPS h)
    (xs : List JSNum) (e : JSError) (he : op.func xs = .error e) : e.message.data ≠ [] := by
  simp only [MATH_OPS, List.mem_cons, List.mem_singleton, List.not_mem_nil, or_false] at hop
  rcases hop with rfl | rfl | rfl | rfl | rfl | rfl | rfl | rfl | rfl | rfl | rfl | rfl | rfl
    | rfl | rfl | rfl | rfl <;> simp only [binary, unary] at he
  all_goals first
    | cases he
    | (have hm := multiplication_error h _ _ e he
       rw [hm]
       simp only [JSError.message, String.data_append]
       simp)
    | (have hm := division_error _ _ e he
       rw [hm]
       decide)
    | (have hm := remainder_error _ _ e he
       rw [hm]
       decide)
    | (have hm := root_error h _ _ e he
       rw [hm]
       decide)
    | (have hm := factorial_error_message h _ e he
       rw [hm]
       simp only [JSError.message, String.data_append]
       simp)

theorem processToken_error_nonempty (h : Host) (output : List JSNum) (char : String)
    (e : JSError) (he : processToken h output char = .error e) : e.message.data ≠ [] := by
  cases hnum : isNumberToken (stripSign char) with
  | true =>
    rw [processToken_number h _ char hnum] at he
    cases he
  | false =>
    cases hop : findOp h (stripSign char) with
    | some op =>
      rw [processToken_op h _ char op hnum hop, applyOp] at he
      split at he
      · cases he
        simp only [JSError.message, String.data_append]
        simp
      · split at he
        · rename_i e' hf
          cases he
          exact func_error_nonempty h op (List.mem_of_find?_eq_some hop) _ e hf
        · cases he
    | none =>
      cases hconst : findConstant (stripSign char) with
      | some c =>
        rw [processToken_constant h _ char c hnum hop hconst] at he
        cases he
      | none =>
        simp only [processToken, hnum, hop, hconst, Bool.false_eq_true, if_false] at he
        cases he
        simp only [JSError.message, String.data_append]
        simp

theorem runTokens_error_nonempty (h : Host) (tokens : List String) :
    ∀ (output : List JSNum) (e : JSError), runTokens h output tokens = .error e →
      e.message.data ≠ [] := by
  induction tokens with
  | nil =>
    intro output e he
    simp only [runTokens] at he
    cases he
  | cons t ts ih =>
    intro output e he
    rw [runTokens] at he
    cases hstep : processToken h output t with
    | error e' =>
      rw [hstep] at he
      cases he
      exact processToken_error_nonempty h output t e hstep
    | ok next =>
      rw [hstep] at he
      exact ih next e he

theorem error_toString (e : JSError) (hm : e.message.data ≠ []) :
    e.toString = e.name ++ ": " ++ e.message := by
  have hname : e.name ≠ "" := by
    cases e
    · exact (by decide : "SyntaxError" ≠ "")
    · exact (by decide : "MathError" ≠ "")
  have hmsg : e.message ≠ "" := by
    intro hnil
    rw [hnil] at hm
    exact hm rfl
  simp only [JSError.toString, hname, hmsg, if_false]

theorem case_pair_facts : ∀ p ∈ asciiCasePairs,
    p.1.toNat < 128 ∧ p.2.toNat < 128 ∧ p.2.toLower = p.1.toLower
      ∧ isTrimChar p.1 = false ∧ isTrimChar p.2 = false := by
  decide

theorem related_chars (h : Host) (c d : Char)
    (hcd : d = c ∨ (c, d) ∈ asciiCasePairs ++ greekCasePairs) :
    lowerChar h d = lowerChar h c ∧ isTrimChar d = isTrimChar c := by
  rcases hcd with rfl | hp
  · exact ⟨rfl, rfl⟩
  · rcases List.mem_append.mp hp with hp | hp
    · obtain ⟨h1, h2, h3, h4, h5⟩ := case_pair_facts (c, d) hp
      simp only at h1 h2 h3 h4 h5
      simp only [lowerChar, h1, h2, h3, h4, h5, if_true]
      exact ⟨trivial, trivial⟩
    · simp only [greekCasePairs, List.mem_cons, Prod.mk.injEq, List.mem_singleton,
        List.not_mem_nil, or_false] at hp
      rcases hp with ⟨rfl, rfl⟩ | ⟨rfl, rfl⟩ | ⟨rfl, rfl⟩ <;>
        exact ⟨by simp [lowerChar], by decide⟩

theorem variantBy_dropWhile (R : Char → Char → Prop)
    (hR : ∀ c d, d = c ∨ R c d → isTrimChar d = isTrimChar c) (l l' : List Char)
    (hv : variantBy R l l') :
    variantBy R (l.dropWhile isTrimChar) (l'.dropWhile isTrimChar) := by
  induction l generalizing l' with
  | nil =>
    cases l' with
    | nil => exact hv
    | cons d ds => exact absurd hv (by simp [variantBy])
  | cons c cs ih =>
    cases l' with
    | nil => exact absurd hv (by simp [variantBy])
    | cons d ds =>
      simp only [variantBy] at hv
      have hws := hR c d hv.1
      simp only [List.dropWhile_cons, hws]
      cases isTrimChar c with
      | true => exact ih ds hv.2
      | false =>
        simp only [Bool.false_eq_true, if_false, variantBy]
        exact hv

theorem variantBy_append (R : Char → Char → Prop) (a b a' b' : List Char)
    (h1 : variantBy R a b) (h2 : variantBy R a' b') : variantBy R (a ++ a') (b ++ b') := by
  induction a generalizing b with
  | nil =>
    cases b with
    | nil => exact h2
    | cons d ds => exact absurd h1 (by simp [variantBy])
  | cons c cs ih =>
    cases b with
    | nil => exact absurd h1 (by simp [variantBy])
    | cons d ds =>
      simp only [variantBy] at h1
      simp only [List.cons_append, variantBy]
      exact ⟨h1.1, ih ds h1.2⟩

theorem variantBy_reverse (R : Char → Char → Prop) (l l' : List Char)
    (hv : variantBy R l l') : variantBy R l.reverse l'.reverse := by
  induction l generalizing l' with
  | nil =>
    cases l' with
    | nil => exact hv
    | cons d ds => exact absurd hv (by simp [variantBy])
  | cons c cs ih =>
    cases l' with
    | nil => exact absurd hv (by simp [variantBy])
    | cons d ds =>
      simp only [variantBy] at hv
      simp only [List.reverse_cons]
      exact variantBy_append R _ _ _ _ (ih ds hv.2)
        (by simp only [variantBy]; exact ⟨hv.1, trivial⟩)

theorem variantBy_flatMap (R : Char → Char → Prop) (h : Host)
    (hR : ∀ c d, d = c ∨ R c d → lowerChar h d = lowerChar h c) (l l' : List Char)
    (hv : variantBy R l l') : l'.flatMap (lowerChar h) = l.flatMap (lowerChar h) := by
  induction l generalizing l' with
  | nil =>
    cases l' with
    | nil => rfl
    | cons d ds => exact absurd hv (by simp [variantBy])
  | cons c cs ih =>
    cases l' with
    | nil => exact absurd hv (by simp [variantBy])
    | cons d ds =>
      simp only [variantBy] at hv
      simp only [List.flatMap_cons, hR c d hv.1, ih ds hv.2]

theorem lowered_trimmed_eq (h : Host) (s s' : String)
    (hv : variantBy (fun c d => (c, d) ∈ asciiCasePairs ++ greekCasePairs) s.data s'.data) :
    toLowerCase h (trim s') = toLowerCase h (trim s) := by
  have hT : ∀ c d, d = c ∨ (c, d) ∈ asciiCasePairs ++ greekCasePairs →
      isTrimChar d = isTrimChar c := fun c d hcd => (related_chars h c d hcd).2
  have hL : ∀ c d, d = c ∨ (c, d) ∈ asciiCasePairs ++ greekCasePairs →
      lowerChar h d = lowerChar h c := fun c d hcd => (related_chars h c d hcd).1
  have h1 := variantBy_dropWhile _ hT _ _ hv
  have h2 := variantBy_dropWhile _ hT _ _ (variantBy_reverse _ _ _ h1)
  have h3 := variantBy_reverse _ _ _ h2
  simp only [toLowerCase, trim, variantBy_flatMap _ h hL _ _ h3]

/-- C14, as it fails: "3  4 +", with two spaces, evaluates to the stack 3, 4: the empty token
is read as the number 0, not refused. -/
theorem double_space_counterexample :
    doTheMath Host.exact "3  4 +" = .ok [JSNum.fin 3, JSNum.fin 4]
    ∧ "" ∈ tokenize "3  4 +" := by
  decide!

/-- C14, amended: an input with two consecutive spaces has an empty token, and an empty token
never fails: it pushes the number 0 on whatever stack it meets. -/
theorem double_space_pushes_zero (h : Host) (input : String) (a b : List Char)
    (hin : input.data = a ++ ' ' :: ' ' :: b) :
    "" ∈ tokenize input
    ∧ ∀ output, processToken h output "" = .ok (output ++ [JSNum.fin 0]) := by
  refine ⟨?_, processToken_empty h⟩
  rw [tokenize, hin]
  exact List.mem_map.mpr ⟨[], List.mem_of_mem_tail (nil_mem_tail_splitSpaces a b), rfl⟩

/-- Witness of the amended C14 on "3  4 +". -/
theorem double_space_pushes_zero_witness :
    "" ∈ tokenize "3  4 +"
    ∧ ∀ output, processToken Host.exact output "" = .ok (output ++ [JSNum.fin 0]) :=
  double_space_pushes_zero Host.exact "3  4 +" ['3'] ['4', ' ', '+'] (by decide)

/-- C15, as it fails: for "foo" the text shown is "SyntaxError: bad token foo" and for "5 0 /"
it is "MathError: cannot divide by 0": the name of the error class comes before the message. -/
theorem display_error_counterexample :
    calcAndDisplay Host.exact "foo" = "SyntaxError: bad token foo"
    ∧ calcAndDisplay Host.exact "foo" ≠ "bad token foo"
    ∧ calcAndDisplay Host.exact "5 0 /" = "MathError: cannot divide by 0"
    ∧ calcAndDisplay Host.exact "5 0 /" ≠ "cannot divide by 0" := by
  decide!

/-- C15, amended: when doTheMath fails on the trimmed, lower-cased input, the text shown is the
name of the error ("SyntaxError" for a ParseError, "MathError" for a MathError), then ": ",
then the message, and nothing of the stack. -/
theorem display_error_text (h : Host) (inputValue : String) (e : JSError)
    (he : doTheMath h (toLowerCase h (trim inputValue)) = .error e) :
    calcAndDisplay h inputValue = e.name ++ ": " ++ e.message
    ∧ (e.name = "SyntaxError" ∨ e.name = "MathError") := by
  constructor
  · simp only [calcAndDisplay, he]
    exact error_toString e (runTokens_error_nonempty h _ [] e he)
  · cases e
    · exact Or.inl rfl
    · exact Or.inr rfl

/-- Witness of the amended C15 on "1 FOO". -/
theorem display_error_text_witness :
    calcAndDisplay Host.exact "1 FOO"
      = (JSError.ParseError "bad token foo").name ++ ": "
        ++ (JSError.ParseError "bad token foo").message
    ∧ ((JSError.ParseError "bad token foo").name = "SyntaxError"
      ∨ (JSError.ParseError "bad token foo").name = "MathError") :=
  display_error_text Host.exact "1 FOO" (JSError.ParseError "bad token foo") (by decide!)

/-- C16, as it fails: the dotless ı has the upper case I and the pi symbol ϖ has the upper case
Π, and toLowerCase does not lead back to them: "pı" is a bad token while "pI" shows π, and "ϖ"
is a bad token while "Π" shows π. -/
theorem display_case_counterexample :
    variantBy (fun c d => (c, d) ∈ strayCasePairs) "pı".data "pI".data
    ∧ calcAndDisplay Host.exact "pı" = "SyntaxError: bad token pı"
    ∧ calcAndDisplay Host.exact "pI" = "π"
    ∧ variantBy (fun c d => (c, d) ∈ strayCasePairs) "ϖ".data "Π".data
    ∧ calcAndDisplay Host.exact "ϖ" = "SyntaxError: bad token ϖ"
    ∧ calcAndDisplay Host.exact "Π" = "π" :=
  ⟨⟨Or.inl rfl, Or.inr (by decide), trivial⟩, by decide!, by decide!,
    ⟨Or.inr (by decide), trivial⟩, by decide!, by decide!⟩

/-- C16, amended: the text calcAndDisplay shows is the same for an input and for the input with
some of its letters a to z, π, τ, φ changed to upper case, A to Z, Π, Τ, Φ: these are the
letters of the aliases, and toLowerCase leads back from the upper case to each of them. -/
theorem display_case_insensitive (h : Host) (s upper : String)
    (hv : variantBy (fun c d => (c, d) ∈ asciiCasePairs ++ greekCasePairs) s.data upper.data) :
    calcAndDisplay h upper = calcAndDisplay h s := by
  simp only [calcAndDisplay, lowered_trimmed_eq h s upper hv]

/-- Witness of the amended C16: "7 3 MOD" is displayed as "7 3 mod" is, and "Π" as "π". -/
theorem display_case_insensitive_witness :
    calcAndDisplay Host.exact "7 3 MOD" = calcAndDisplay Host.exact "7 3 mod"
    ∧ calcAndDisplay Host.exact "7 3 mod" = "1"
    ∧ calcAndDisplay Host.exact "Π" = calcAndDisplay Host.exact "π" :=
  ⟨display_case_insensitive Host.exact "7 3 mod" "7 3 MOD" (by
    simp only [variantBy]
    decide), by decide!,
   display_case_insensitive Host.exact "π" "Π" (by
    simp only [variantBy]
    decide)⟩
/-! ## Number tokens -/

theorem isDigit_ne_dot (c : Char) (hc : c.isDigit = true) : c ≠ '.' := by
  rintro rfl
  exact absurd hc (by decide)

theorem takeWhile_not_dot_digits (w rest : List Char) (hw : ∀ c ∈ w, c.isDigit = true) :
    (w ++ '.' :: rest).takeWhile (fun c => c != '.') = w
    ∧ (w ++ '.' :: rest).dropWhile (fun c => c != '.') = '.' :: rest := by
  induction w with
  | nil => simp
  | cons c cs ih =>
    have hc : (c != '.') = true := by
      simpa using isDigit_ne_dot c (hw c (List.mem_cons_self c cs))
    obtain ⟨h1, h2⟩ := ih (fun d hd => hw d (List.mem_cons_of_mem c hd))
    simp only [List.cons_append, List.takeWhile_cons, List.dropWhile_cons, hc, if_true, h1, h2]
    exact ⟨trivial, trivial⟩

theorem takeWhile_not_dot_all (w : List Char) (hw : ∀ c ∈ w, c.isDigit = true) :
    w.takeWhile (fun c => c != '.') = w ∧ w.dropWhile (fun c => c != '.') = [] := by
  induction w with
  | nil => simp
  | cons c cs ih =>
    have hc : (c != '.') = true := by
      simpa using isDigit_ne_dot c (hw c (List.mem_cons_self c cs))
    obtain ⟨h1, h2⟩ := ih (fun d hd => hw d (List.mem_cons_of_mem c hd))
    simp only [List.takeWhile_cons, List.dropWhile_cons, hc, if_true, h1, h2]
    exact ⟨trivial, trivial⟩

theorem Number_whole (w : List Char) (hw : ∀ c ∈ w, c.isDigit = true) (hne : w ≠ []) :
    Number (String.mk w) = roundBinary64 (digitsValue w : ℚ) := by
  have hnum : isNumberToken (String.mk w) = true := by
    simp only [isNumberToken, List.all_eq_true, Bool.or_eq_true]
    exact fun c hc => Or.inl (hw c hc)
  obtain ⟨h1, h2⟩ := takeWhile_not_dot_all w hw
  simp only [Number, hne, hnum, if_false, h1, h2, Bool.true_eq_false]

theorem Number_whole_dot_frac (w f : List Char) (hw : ∀ c ∈ w, c.isDigit = true)
    (hf : ∀ c ∈ f, c.isDigit = true) (hne : w ≠ [] ∨ f ≠ []) :
    Number (String.mk (w ++ '.' :: f))
      = roundBinary64 ((digitsValue w : ℚ) + (digitsValue f : ℚ) / 10 ^ f.length) := by
  have hnum : isNumberToken (String.mk (w ++ '.' :: f)) = true := by
    simp only [isNumberToken, List.all_eq_true, Bool.or_eq_true, List.mem_append,
      List.mem_cons]
    rintro c (hc | rfl | hc)
    · exact Or.inl (hw c hc)
    · exact Or.inr (by decide)
    · exact Or.inl (hf c hc)
  obtain ⟨h1, h2⟩ := takeWhile_not_dot_digits w f hw
  have hall : f.all Char.isDigit = true := List.all_eq_true.mpr hf
  have hsome : (!w.isEmpty || !f.isEmpty) = true := by
    rcases hne with h | h
    · cases w with
      | nil => exact absurd rfl h
      | cons _ _ => rfl
    · cases f with
      | nil => exact absurd rfl h
      | cons _ _ => simp
  have hnil : w ++ '.' :: f ≠ [] := by simp
  simp only [Number, hnil, hnum, if_false, h1, h2, hall, hsome, Bool.true_eq_false,
    Bool.and_self, if_true]

theorem digits_of_takeWhile (l : List Char)
    (hl : ∀ c ∈ l, (c.isDigit || c == '.') = true) :
    ∀ c ∈ l.takeWhile (fun c => c != '.'), c.isDigit = true := by
  intro c hc
  have hmem : c ∈ l := List.takeWhile_subset _ hc
  have hp := List.mem_takeWhile_imp hc
  have hne : c ≠ '.' := by simpa using hp
  rcases Bool.or_eq_true _ _ ▸ hl c hmem with h | h
  · exact h
  · exact absurd (by simpa using h) hne

theorem Number_nan_of_not_literal (token : String) (hnum : isNumberToken token = true)
    (hne : token.data ≠ []) (hlit : isDecimalLiteral token = false) :
    Number token = JSNum.nan := by
  have hl : ∀ c ∈ token.data, (c.isDigit || c == '.') = true := by
    simpa [isNumberToken] using hnum
  have hw := digits_of_takeWhile token.data hl
  have hsplit := List.takeWhile_append_dropWhile (fun c => c != '.') token.data
  simp only [Number, hne, hnum, if_false, Bool.true_eq_false]
  cases hr : token.data.dropWhile (fun c => c != '.') with
  | nil =>
    exfalso
    rw [hr, List.append_nil] at hsplit
    rw [hsplit] at hw
    have hany : token.data.any Char.isDigit = true := by
      cases hd : token.data with
      | nil => exact absurd hd hne
      | cons c cs =>
        rw [hd] at hw
        simp [hw c (List.mem_cons_self c cs)]
    have hcount : token.data.count '.' = 0 :=
      List.count_eq_zero.mpr (fun hmem => isDigit_ne_dot _ (hw _ hmem) rfl)
    simp [isDecimalLiteral, hnum, hany, hcount] at hlit
  | cons x f =>
    simp only
    split
    · rename_i hcond
      exfalso
      simp only [Bool.and_eq_true] at hcond
      obtain ⟨hall, hsome⟩ := hcond
      have hf : ∀ c ∈ f, c.isDigit = true := List.all_eq_true.mp hall
      have hx : x = '.' := by
        have := List.head_dropWhile_not (fun c => c != '.') token.data
          (by rw [hr]; exact List.cons_ne_nil x f)
        simp only [hr, List.head_cons] at this
        simpa using this
      rw [hr, hx] at hsplit
      have hany : token.data.any Char.isDigit = true := by
        rw [← hsplit]
        simp only [List.any_append, List.any_cons, Bool.or_eq_true]
        cases hwe : token.data.takeWhile (fun c => c != '.') with
        | nil =>
          rw [hwe] at hsome
          cases f with
          | nil => simp at hsome
          | cons d ds =>
            right
            right
            simp [hf d (List.mem_cons_self d ds)]
        | cons d ds =>
          left
          rw [hwe] at hw
          simp [hw d (List.mem_cons_self d ds)]
      have hcount : token.data.count '.' = 1 := by
        rw [← hsplit, List.count_append, List.count_cons_self,
          List.count_eq_zero.mpr (fun hmem => isDigit_ne_dot _ (hw _ hmem) rfl),
          List.count_eq_zero.mpr (fun hmem => isDigit_ne_dot _ (hf _ hmem) rfl)]
      simp [isDecimalLiteral, hnum, hany, hcount] at hlit
    · rfl

/-- C18, as it fails: "9007199254740993" is a well-formed decimal literal and the value pushed
for it is 9007199254740992, not its decimal value; for "0.1" it is the binary64 number next to
one tenth; for 1 followed by 309 zeros it is Infinity. -/
theorem number_token_counterexample :
    isDecimalLiteral "9007199254740993" = true
    ∧ doTheMath Host.exact "9007199254740993" = .ok [JSNum.fin 9007199254740992]
    ∧ Number "9007199254740993" ≠ JSNum.fin (digitsValue "9007199254740993".data : ℚ)
    ∧ doTheMath Host.exact "0.1" = .ok [JSNum.fin (3602879701896397 / 2 ^ 55)]
    ∧ Number "0.1" ≠ JSNum.fin (1 / 10)
    ∧ Number (String.mk ('1' :: List.replicate 309 '0')) = JSNum.posInf := by
  decide!

/-- C18, amended: a token made only of digits and dots is a number token: it pushes exactly one
value, Number(token), and raises no error. That value is 0 for the empty token (so the empty
input gives the stack 0), NaN for every token that is no decimal literal, such as ".", ".." and
"1.2.3", and for digits with at most one dot and at least one digit the rounding of the decimal
value to binary64. The binary64 numbers are the multiples m * 2^t with |m| below 2^53 and t from
-1074 on that are below 2^1024 in magnitude; a rounding that is finite is one of them, none of
them is nearer to the decimal value, it is finite below 2^1023, and it is the decimal value
itself when that is a binary64 number, as every whole number below 2^53 is. -/
theorem number_token_pushes_one_value (h : Host) :
    (∀ (output : List JSNum) (token : String), isNumberToken token = true →
      processToken h output token = .ok (output ++ [Number token]))
    ∧ Number "" = JSNum.fin 0
    ∧ doTheMath h "" = .ok [JSNum.fin 0]
    ∧ (∀ w : List Char, (∀ c ∈ w, c.isDigit = true) → w ≠ [] →
        Number (String.mk w) = roundBinary64 (digitsValue w : ℚ))
    ∧ (∀ w f : List Char, (∀ c ∈ w, c.isDigit = true) → (∀ c ∈ f, c.isDigit = true) →
        (w ≠ [] ∨ f ≠ []) →
        Number (String.mk (w ++ '.' :: f))
          = roundBinary64 ((digitsValue w : ℚ) + (digitsValue f : ℚ) / 10 ^ f.length))
    ∧ (∀ token : String, isNumberToken token = true → token.data ≠ [] →
        isDecimalLiteral token = false → Number token = JSNum.nan)
    ∧ Number "." = JSNum.nan ∧ Number ".." = JSNum.nan ∧ Number "1.2.3" = JSNum.nan
    ∧ (∀ d y : ℚ, roundBinary64 d = JSNum.fin y →
        (∃ m t : ℤ, |m| < 2 ^ 53 ∧ -1074 ≤ t ∧ y = (m : ℚ) * 2 ^ t)
        ∧ ∀ m t : ℤ, |m| < 2 ^ 53 → -1074 ≤ t → |(m : ℚ) * 2 ^ t| < 2 ^ 1024 →
            |y - d| ≤ |(m : ℚ) * 2 ^ t - d|)
    ∧ (∀ d : ℚ, |d| < 2 ^ 1023 → ∃ y, roundBinary64 d = JSNum.fin y)
    ∧ (∀ m t : ℤ, |m| < 2 ^ 53 → -1074 ≤ t → |(m : ℚ) * 2 ^ t| < 2 ^ 1024 →
        roundBinary64 ((m : ℚ) * 2 ^ t) = JSNum.fin ((m : ℚ) * 2 ^ t))
    ∧ (∀ n : ℕ, n < 2 ^ 53 → roundBinary64 (n : ℚ) = JSNum.fin (n : ℚ)) := by
  refine ⟨fun output token hnum => processToken_plain_number h output token hnum, rfl, ?_,
    Number_whole, Number_whole_dot_frac, Number_nan_of_not_literal, by decide, by decide,
    by decide, ?_, roundBinary64_finite, isBinary64_of_scaled, ?_⟩
  · rw [doTheMath_single h "" (by decide), processToken_empty]
    rfl
  · intro d y hy
    obtain ⟨m, t, hm, ht, hym, _⟩ := roundBinary64_scaled d y hy
    exact ⟨⟨m, t, hm, ht, hym⟩, fun m' t' hm' ht' hlt =>
      roundBinary64_nearest d y _ hy (isBinary64_of_scaled m' t' hm' ht' hlt)⟩
  · intro n hn
    have hcast : |(n : ℤ)| < 2 ^ 53 := by
      rw [abs_of_nonneg (Int.natCast_nonneg n)]
      exact_mod_cast hn
    exact isBinary64_intCast (n : ℤ) hcast

/-- Witness of the amended C18: "1.2.3" pushes NaN, "12.5" pushes 12.5 and "9007199254740993"
pushes 9007199254740992. -/
theorem number_token_pushes_one_value_witness :
    processToken Host.exact [] "1.2.3" = .ok ([] ++ [Number "1.2.3"])
    ∧ Number "1.2.3" = JSNum.nan
    ∧ Number (String.mk (['1', '2'] ++ '.' :: ['5']))
      = roundBinary64 ((digitsValue ['1', '2'] : ℚ) + (digitsValue ['5'] : ℚ) / 10 ^ ['5'].length)
    ∧ Number "12.5" = JSNum.fin (25 / 2)
    ∧ Number "9007199254740993" = JSNum.fin 9007199254740992 :=
  have hw := number_token_pushes_one_value Host.exact
  ⟨hw.1 [] "1.2.3" (by decide), hw.2.2.2.2.2.1 "1.2.3" (by decide) (by decide) (by decide),
    hw.2.2.2.2.1 ['1', '2'] ['5'] (by decide) (by decide) (Or.inl (by decide)),
    by decide!, by decide!⟩
/-! ## Printing and reading back -/

theorem digitsValue_foldl (cs : List Char) (acc : ℕ) :
    cs.foldl (fun a c => 10 * a + (c.toNat - 48)) acc = acc * 10 ^ cs.length + digitsValue cs := by
  induction cs generalizing acc with
  | nil => simp [digitsValue]
  | cons c cs ih =>
    simp only [List.foldl_cons, List.length_cons, digitsValue]
    rw [ih, ih (10 * 0 + (c.toNat - 48))]
    ring

theorem digitsValue_cons (c : Char) (cs : List Char) :
    digitsValue (c :: cs) = (c.toNat - 48) * 10 ^ cs.length + digitsValue cs := by
  rw [digitsValue, List.foldl_cons, digitsValue_foldl]
  ring

theorem digitsValue_append (a b : List Char) :
    digitsValue (a ++ b) = digitsValue a * 10 ^ b.length + digitsValue b := by
  induction a with
  | nil => simp [digitsValue]
  | cons c cs ih =>
    rw [List.cons_append, digitsValue_cons, digitsValue_cons, ih, List.length_append]
    ring

theorem digitsValue_replicate_zero (z : ℕ) : digitsValue (List.replicate z '0') = 0 := by
  induction z with
  | zero => rfl
  | succ k ih =>
    have h0 : '0'.toNat - 48 = 0 := by decide
    rw [List.replicate_succ, digitsValue_cons, ih, h0]
    simp

theorem digitChar_spec (k : ℕ) (hk : k < 10) :
    (Nat.digitChar k).isDigit = true ∧ (Nat.digitChar k).toNat - 48 = k := by
  interval_cases k <;> decide

theorem toDigitsCore_spec (fuel : ℕ) :
    ∀ (n : ℕ) (ds : List Char), n < fuel →
      ∃ pre, Nat.toDigitsCore 10 fuel n ds = pre ++ ds ∧ (∀ c ∈ pre, c.isDigit = true)
        ∧ digitsValue pre = n ∧ pre ≠ [] := by
  induction fuel with
  | zero =>
    intro n ds hn
    exact absurd hn (Nat.not_lt_zero n)
  | succ f ih =>
    intro n ds hn
    obtain ⟨hd, hv⟩ := digitChar_spec (n % 10) (Nat.mod_lt n (by norm_num))
    by_cases h0 : n / 10 = 0
    · refine ⟨[Nat.digitChar (n % 10)], ?_, ?_, ?_, by simp⟩
      · simp [Nat.toDigitsCore, h0]
      · intro c hc
        rw [List.mem_singleton] at hc
        rw [hc]
        exact hd
      · rw [digitsValue_cons, hv]
        simp only [List.length_nil, pow_zero, mul_one, digitsValue, List.foldl_nil, add_zero]
        omega
    · have hlt : n / 10 < f := by omega
      obtain ⟨pre, hpre, hdig, hval, _⟩ := ih (n / 10) (Nat.digitChar (n % 10) :: ds) hlt
      refine ⟨pre ++ [Nat.digitChar (n % 10)], ?_, ?_, ?_, by simp⟩
      · simp only [Nat.toDigitsCore, h0, if_false, hpre, List.append_assoc,
          List.singleton_append]
      · intro c hc
        rw [List.mem_append, List.mem_singleton] at hc
        rcases hc with hc | hc
        · exact hdig c hc
        · rw [hc]
          exact hd
      · rw [digitsValue_append, hval, digitsValue_cons, hv]
        simp only [List.length_singleton, List.length_nil, pow_zero, mul_one, pow_one,
          digitsValue, List.foldl_nil, add_zero]
        omega

theorem toDigits_spec (n : ℕ) :
    (∀ c ∈ Nat.toDigits 10 n, c.isDigit = true) ∧ digitsValue (Nat.toDigits 10 n) = n
      ∧ Nat.toDigits 10 n ≠ [] := by
  obtain ⟨pre, hpre, hdig, hval, hne⟩ := toDigitsCore_spec (n + 1) n [] (Nat.lt_succ_self n)
  rw [List.append_nil] at hpre
  rw [Nat.toDigits, hpre]
  exact ⟨hdig, hval, hne⟩

theorem stripTrailingZeros_spec (ds : List Char) :
    ∃ z, ds = stripTrailingZeros ds ++ List.replicate z '0' := by
  have hsplit := List.takeWhile_append_dropWhile (fun c => c == '0') ds.reverse
  have hzeros : ds.reverse.takeWhile (fun c => c == '0')
      = List.replicate (ds.reverse.takeWhile (fun c => c == '0')).length '0' := by
    apply List.eq_replicate_iff.mpr
    refine ⟨rfl, ?_⟩
    intro c hc
    simpa using List.mem_takeWhile_imp hc
  refine ⟨(ds.reverse.takeWhile (fun c => c == '0')).length, ?_⟩
  have hrev := congrArg List.reverse hsplit
  rw [List.reverse_append, List.reverse_reverse] at hrev
  have hz := congrArg List.reverse hzeros
  rw [List.reverse_replicate] at hz
  rw [stripTrailingZeros]
  exact hrev.symm.trans (by rw [hz])

theorem stripTrailingZeros_subset (ds : List Char) :
    ∀ c ∈ stripTrailingZeros ds, c ∈ ds := by
  intro c hc
  rw [stripTrailingZeros, List.mem_reverse] at hc
  have := (List.dropWhile_sublist (fun c => c == '0')).subset hc
  simpa using this

theorem span_digits (w rest : List Char) (hw : ∀ c ∈ w, c.isDigit = true)
    (hr : ∀ c ∈ rest.head?, c.isDigit = false) :
    (w ++ rest).takeWhile Char.isDigit = w ∧ (w ++ rest).dropWhile Char.isDigit = rest := by
  induction w with
  | nil =>
    cases rest with
    | nil => simp
    | cons c r =>
      have hc : c.isDigit = false := hr c (by simp)
      simp [List.takeWhile_cons, List.dropWhile_cons, hc]
  | cons c cs ih =>
    have hc : c.isDigit = true := hw c (List.mem_cons_self c cs)
    obtain ⟨h1, h2⟩ := ih (fun d hd => hw d (List.mem_cons_of_mem c hd))
    simp only [List.cons_append, List.takeWhile_cons, List.dropWhile_cons, hc, if_true, h1, h2]
    exact ⟨trivial, trivial⟩

theorem span_digits_end (w : List Char) (hw : ∀ c ∈ w, c.isDigit = true) :
    w.takeWhile Char.isDigit = w ∧ w.dropWhile Char.isDigit = [] := by
  have := span_digits w [] hw (by simp)
  simpa using this

theorem digitsValue_nil : digitsValue [] = 0 := rfl

theorem parseUnsigned_whole (w : List Char) (hw : ∀ c ∈ w, c.isDigit = true) (hne : w ≠ []) :
    parseUnsigned w = JSNum.fin (digitsValue w : ℚ) := by
  obtain ⟨h1, h2⟩ := span_digits_end w hw
  have hemp : w.isEmpty = false := by
    cases w with
    | nil => exact absurd rfl hne
    | cons _ _ => rfl
  simp [parseUnsigned, h1, h2, hemp, digitsValue_nil]

theorem parseUnsigned_frac (w f : List Char) (hw : ∀ c ∈ w, c.isDigit = true)
    (hf : ∀ c ∈ f, c.isDigit = true) (hne : w ≠ []) :
    parseUnsigned (w ++ '.' :: f)
      = JSNum.fin ((digitsValue w : ℚ) + (digitsValue f : ℚ) / 10 ^ f.length) := by
  obtain ⟨h1, h2⟩ := span_digits w ('.' :: f) hw (by simp)
  obtain ⟨h3, h4⟩ := span_digits_end f hf
  have hemp : w.isEmpty = false := by
    cases w with
    | nil => exact absurd rfl hne
    | cons _ _ => rfl
  simp [parseUnsigned, h1, h2, h3, h4, hemp, digitsValue_nil]

theorem parseUnsigned_exp (w x : List Char) (sg : Char) (hw : ∀ c ∈ w, c.isDigit = true)
    (hx : ∀ c ∈ x, c.isDigit = true) (hne : w ≠ []) (hsg : sg = '-' ∨ sg = '+') :
    parseUnsigned (w ++ 'e' :: sg :: x)
      = JSNum.fin ((digitsValue w : ℚ)
          * 10 ^ (if sg = '-' then -(digitsValue x : ℤ) else (digitsValue x : ℤ))) := by
  obtain ⟨h1, h2⟩ := span_digits w ('e' :: sg :: x) hw (by simp)
  obtain ⟨h3, h4⟩ := span_digits_end x hx
  have hemp : w.isEmpty = false := by
    cases w with
    | nil => exact absurd rfl hne
    | cons _ _ => rfl
  rcases hsg with rfl | rfl <;> simp [parseUnsigned, h1, h2, h3, h4, hemp, digitsValue_nil]

theorem parseUnsigned_frac_exp (w f x : List Char) (sg : Char)
    (hw : ∀ c ∈ w, c.isDigit = true) (hf : ∀ c ∈ f, c.isDigit = true)
    (hx : ∀ c ∈ x, c.isDigit = true) (hne : w ≠ []) (hsg : sg = '-' ∨ sg = '+') :
    parseUnsigned (w ++ '.' :: (f ++ 'e' :: sg :: x))
      = JSNum.fin (((digitsValue w : ℚ) + (digitsValue f : ℚ) / 10 ^ f.length)
          * 10 ^ (if sg = '-' then -(digitsValue x : ℤ) else (digitsValue x : ℤ))) := by
  obtain ⟨h1, h2⟩ := span_digits w ('.' :: (f ++ 'e' :: sg :: x)) hw (by simp)
  obtain ⟨h3, h4⟩ := span_digits f ('e' :: sg :: x) hf (by simp)
  obtain ⟨h5, h6⟩ := span_digits_end x hx
  have hemp : w.isEmpty = false := by
    cases w with
    | nil => exact absurd rfl hne
    | cons _ _ => rfl
  rcases hsg with rfl | rfl <;> simp [parseUnsigned, h1, h2, h3, h4, h5, h6, hemp, digitsValue_nil]

theorem toString_nat_data (n : ℕ) : (toString n).data = Nat.toDigits 10 n := rfl

theorem zpow_ten_of_nat (a : ℤ) (j : ℕ) (ha : a = (j : ℤ)) : (10 : ℚ) ^ a = 10 ^ j := by
  subst ha
  exact zpow_natCast 10 j

theorem zpow_ten_of_neg_nat (a : ℤ) (j : ℕ) (ha : a = -(j : ℤ)) :
    (10 : ℚ) ^ a = 1 / 10 ^ j := by
  subst ha
  rw [zpow_neg, zpow_natCast, one_div]

theorem head_isDigit_of_ne_nil (s : List Char) (hs : ∀ c ∈ s, c.isDigit = true)
    (hne : s ≠ []) : ∃ d rest, s = d :: rest ∧ d.isDigit = true := by
  cases s with
  | nil => exact absurd rfl hne
  | cons d rest => exact ⟨d, rest, rfl, hs d (List.mem_cons_self d rest)⟩

theorem digitsToString_whole (s : List Char) (n : ℤ) (hs : ∀ c ∈ s, c.isDigit = true)
    (hne : s ≠ []) (h1 : (s.length : ℤ) ≤ n ∧ n ≤ 21) :
    parseUnsigned (digitsToString s n).data
        = JSNum.fin ((digitsValue s : ℚ) * 10 ^ (n - (s.length : ℤ)))
      ∧ ∃ d rest, (digitsToString s n).data = d :: rest ∧ d.isDigit = true := by
  have hstr : (digitsToString s n).data = s ++ List.replicate (n - (s.length : ℤ)).toNat '0' := by
    simp only [digitsToString]
    rw [if_pos h1]
  have hdig : ∀ c ∈ s ++ List.replicate (n - (s.length : ℤ)).toNat '0', c.isDigit = true := by
    intro c hc
    rw [List.mem_append] at hc
    rcases hc with hc | hc
    · exact hs c hc
    · rw [(List.mem_replicate.mp hc).2]
      rfl
  rw [hstr]
  constructor
  · rw [parseUnsigned_whole _ hdig (by simp [hne]), digitsValue_append,
      digitsValue_replicate_zero, List.length_replicate,
      zpow_ten_of_nat (n - (s.length : ℤ)) (n - (s.length : ℤ)).toNat
        (Int.toNat_of_nonneg (by omega)).symm]
    push_cast
    ring_nf
  · obtain ⟨d, rest, hd, hdd⟩ := head_isDigit_of_ne_nil s hs hne
    exact ⟨d, rest ++ List.replicate (n - (s.length : ℤ)).toNat '0', by rw [hd]; rfl, hdd⟩

theorem digitsToString_point (s : List Char) (n : ℤ) (hs : ∀ c ∈ s, c.isDigit = true)
    (h1 : ¬ ((s.length : ℤ) ≤ n ∧ n ≤ 21)) (h2 : 0 < n ∧ n ≤ 21) :
    parseUnsigned (digitsToString s n).data
        = JSNum.fin ((digitsValue s : ℚ) * 10 ^ (n - (s.length : ℤ)))
      ∧ ∃ d rest, (digitsToString s n).data = d :: rest ∧ d.isDigit = true := by
  have hstr : (digitsToString s n).data = s.take n.toNat ++ '.' :: s.drop n.toNat := by
    simp only [digitsToString]
    rw [if_neg h1, if_pos h2]
  have hlt : n.toNat < s.length := by omega
  have hpos : 0 < n.toNat := by omega
  have htake : ∀ c ∈ s.take n.toNat, c.isDigit = true :=
    fun c hc => hs c (List.mem_of_mem_take hc)
  have hdrop : ∀ c ∈ s.drop n.toNat, c.isDigit = true :=
    fun c hc => hs c (List.mem_of_mem_drop hc)
  have htne : s.take n.toNat ≠ [] := by
    intro hnil
    rcases List.take_eq_nil_iff.mp hnil with h0 | h0
    · omega
    · rw [h0] at hlt
      simp at hlt
  rw [hstr]
  constructor
  · rw [parseUnsigned_frac _ _ htake hdrop htne]
    have hval : digitsValue s
        = digitsValue (s.take n.toNat) * 10 ^ (s.drop n.toNat).length
          + digitsValue (s.drop n.toNat) := by
      rw [← digitsValue_append, List.take_append_drop]
    have hlen : (s.drop n.toNat).length = s.length - n.toNat := List.length_drop _ _
    rw [hval, zpow_ten_of_neg_nat (n - (s.length : ℤ)) (s.drop n.toNat).length
      (by rw [hlen]; omega)]
    congr 1
    push_cast
    field_simp
  · obtain ⟨d, rest, hd, hdd⟩ := head_isDigit_of_ne_nil _ htake htne
    exact ⟨d, rest ++ '.' :: s.drop n.toNat, by rw [hd]; rfl, hdd⟩

theorem digitsToString_small (s : List Char) (n : ℤ) (hs : ∀ c ∈ s, c.isDigit = true)
    (h1 : ¬ ((s.length : ℤ) ≤ n ∧ n ≤ 21)) (h2 : ¬ (0 < n ∧ n ≤ 21))
    (h3 : -6 < n ∧ n ≤ 0) :
    parseUnsigned (digitsToString s n).data
        = JSNum.fin ((digitsValue s : ℚ) * 10 ^ (n - (s.length : ℤ)))
      ∧ ∃ d rest, (digitsToString s n).data = d :: rest ∧ d.isDigit = true := by
  have hstr : (digitsToString s n).data
      = ['0'] ++ '.' :: (List.replicate (-n).toNat '0' ++ s) := by
    simp only [digitsToString]
    rw [if_neg h1, if_neg h2, if_pos h3]
    rfl
  have hf : ∀ c ∈ List.replicate (-n).toNat '0' ++ s, c.isDigit = true := by
    intro c hc
    rw [List.mem_append] at hc
    rcases hc with hc | hc
    · rw [(List.mem_replicate.mp hc).2]
      rfl
    · exact hs c hc
  rw [hstr]
  constructor
  · rw [parseUnsigned_frac ['0'] _ (by decide) hf (by decide), digitsValue_append,
      digitsValue_replicate_zero, List.length_append, List.length_replicate,
      zpow_ten_of_neg_nat (n - (s.length : ℤ)) ((-n).toNat + s.length)
        (by push_cast; rw [Int.toNat_of_nonneg (by omega)]; ring)]
    congr 1
    have h0 : digitsValue ['0'] = 0 := by decide
    rw [h0]
    push_cast
    field_simp
  · exact ⟨'0', _, rfl, by decide⟩

theorem digitsToString_exp (s : List Char) (n : ℤ) (hs : ∀ c ∈ s, c.isDigit = true)
    (hne : s ≠ [])
    (h1 : ¬ ((s.length : ℤ) ≤ n ∧ n ≤ 21)) (h2 : ¬ (0 < n ∧ n ≤ 21))
    (h3 : ¬ (-6 < n ∧ n ≤ 0)) :
    parseUnsigned (digitsToString s n).data
        = JSNum.fin ((digitsValue s : ℚ) * 10 ^ (n - (s.length : ℤ)))
      ∧ ∃ d rest, (digitsToString s n).data = d :: rest ∧ d.isDigit = true := by
  obtain ⟨hx, hxv, _⟩ := toDigits_spec (n - 1).natAbs
  have hexpo : ((if n - 1 < 0 then "-" else "+") ++ toString (n - 1).natAbs).data
      = (if n - 1 < 0 then '-' else '+') :: Nat.toDigits 10 (n - 1).natAbs := by
    rw [String.data_append, toString_nat_data]
    split <;> rfl
  have hsg : (if n - 1 < 0 then '-' else '+') = '-' ∨ (if n - 1 < 0 then '-' else '+') = '+' := by
    split
    · exact Or.inl rfl
    · exact Or.inr rfl
  have hexp : (if (if n - 1 < 0 then '-' else '+') = '-'
        then -(digitsValue (Nat.toDigits 10 (n - 1).natAbs) : ℤ)
        else (digitsValue (Nat.toDigits 10 (n - 1).natAbs) : ℤ)) = n - 1 := by
    rw [hxv]
    by_cases hneg : n - 1 < 0
    · simp only [hneg, if_true]
      omega
    · simp only [hneg, if_false]
      rw [if_neg (by decide)]
      omega
  obtain ⟨d, rest, hd, hdd⟩ := head_isDigit_of_ne_nil s hs hne
  by_cases hk : s.length = 1
  · have hstr : (digitsToString s n).data
        = s ++ 'e' :: (if n - 1 < 0 then '-' else '+') :: Nat.toDigits 10 (n - 1).natAbs := by
      simp only [digitsToString]
      rw [if_neg h1, if_neg h2, if_neg h3, if_pos hk, String.append_assoc, String.data_append,
        String.data_append, hexpo]
      rfl
    rw [hstr]
    constructor
    · rw [parseUnsigned_exp s _ _ hs hx hne hsg, hexp, hk]
      rfl
    · exact ⟨d, rest ++ 'e' :: (if n - 1 < 0 then '-' else '+')
        :: Nat.toDigits 10 (n - 1).natAbs, by rw [hd]; rfl, hdd⟩
  · have hstr : (digitsToString s n).data
        = s.take 1 ++ '.' :: (s.drop 1 ++ 'e' :: (if n - 1 < 0 then '-' else '+')
            :: Nat.toDigits 10 (n - 1).natAbs) := by
      simp only [digitsToString]
      rw [if_neg h1, if_neg h2, if_neg h3, if_neg hk, String.append_assoc, String.data_append,
        String.data_append, hexpo]
      simp
    have htake : ∀ c ∈ s.take 1, c.isDigit = true :=
      fun c hc => hs c (List.mem_of_mem_take hc)
    have hdrop : ∀ c ∈ s.drop 1, c.isDigit = true :=
      fun c hc => hs c (List.mem_of_mem_drop hc)
    have htne : s.take 1 ≠ [] := by
      rw [hd]
      simp
    rw [hstr]
    constructor
    · rw [parseUnsigned_frac_exp _ _ _ _ htake hdrop hx htne hsg, hexp]
      have hval : digitsValue s
          = digitsValue (s.take 1) * 10 ^ (s.drop 1).length + digitsValue (s.drop 1) := by
        rw [← digitsValue_append, List.take_append_drop]
      have hlen : (s.drop 1).length = s.length - 1 := List.length_drop _ _
      have hlen1 : 1 ≤ s.length := by
        rw [hd]
        simp
      have hsplit : (10 : ℚ) ^ (n - (s.length : ℤ))
          = 10 ^ (n - 1) * (1 / 10 ^ (s.drop 1).length) := by
        rw [← zpow_ten_of_neg_nat (-((s.drop 1).length : ℤ)) _ rfl, ← zpow_add₀ (by norm_num)]
        congr 1
        rw [hlen]
        omega
      rw [hval, hsplit]
      congr 1
      push_cast
      field_simp
    · exact ⟨d, _, by rw [hd]; rfl, hdd⟩

theorem digitsToString_parse (s : List Char) (n : ℤ) (hs : ∀ c ∈ s, c.isDigit = true)
    (hne : s ≠ []) :
    parseUnsigned (digitsToString s n).data
        = JSNum.fin ((digitsValue s : ℚ) * 10 ^ (n - (s.length : ℤ)))
      ∧ ∃ d rest, (digitsToString s n).data = d :: rest ∧ d.isDigit = true := by
  by_cases h1 : (s.length : ℤ) ≤ n ∧ n ≤ 21
  · exact digitsToString_whole s n hs hne h1
  · by_cases h2 : 0 < n ∧ n ≤ 21
    · exact digitsToString_point s n hs h1 h2
    · by_cases h3 : -6 < n ∧ n ≤ 0
      · exact digitsToString_small s n hs h1 h2 h3
      · exact digitsToString_exp s n hs hne h1 h2 h3


theorem decimalToString_parse (s : ℕ) (hs : 0 < s) (p : ℤ) :
    parseUnsigned (decimalToString s p).data = JSNum.fin ((s : ℚ) * 10 ^ p)
      ∧ ∃ d rest, (decimalToString s p).data = d :: rest ∧ d.isDigit = true := by
  obtain ⟨hdig, hval, _⟩ := toDigits_spec s
  obtain ⟨z, hz⟩ := stripTrailingZeros_spec (Nat.toDigits 10 s)
  have hsd : ∀ c ∈ stripTrailingZeros (Nat.toDigits 10 s), c.isDigit = true :=
    fun c hc => hdig c (stripTrailingZeros_subset _ c hc)
  have hs' : digitsValue (stripTrailingZeros (Nat.toDigits 10 s)) * 10 ^ z = s := by
    have := hval
    rw [hz, digitsValue_append, digitsValue_replicate_zero, List.length_replicate] at this
    simpa using this
  have hne : stripTrailingZeros (Nat.toDigits 10 s) ≠ [] := by
    intro hnil
    rw [hnil] at hs'
    simp [digitsValue_nil] at hs'
    omega
  have hlen : ((Nat.toDigits 10 s).length : ℤ)
      = (stripTrailingZeros (Nat.toDigits 10 s)).length + z := by
    conv_lhs => rw [hz]
    rw [List.length_append, List.length_replicate]
    push_cast
    rfl
  obtain ⟨hparse, hhead⟩ := digitsToString_parse (stripTrailingZeros (Nat.toDigits 10 s))
    (((Nat.toDigits 10 s).length : ℤ) + p) hsd hne
  refine ⟨?_, hhead⟩
  rw [decimalToString, hparse]
  congr 1
  have hexp : ((Nat.toDigits 10 s).length : ℤ) + p
      - ((stripTrailingZeros (Nat.toDigits 10 s)).length : ℤ) = (z : ℤ) + p := by
    rw [hlen]
    ring
  rw [hexp, zpow_add₀ (by norm_num), zpow_natCast]
  have hq : (s : ℚ) = (digitsValue (stripTrailingZeros (Nat.toDigits 10 s)) : ℚ) * 10 ^ z := by
    exact_mod_cast hs'.symm
  rw [hq]
  ring

theorem digit_char_facts (d : Char) (hd : d.isDigit = true) :
    isTrimChar d = false ∧ d ≠ '-' ∧ d ≠ '+' ∧ d ≠ 'I' := by
  refine ⟨?_, ?_, ?_, ?_⟩
  · simp only [Char.isDigit, Bool.and_eq_true, decide_eq_true_eq] at hd
    obtain ⟨h1, h2⟩ := hd
    have h1' : 48 ≤ d.toNat := h1
    have h2' : d.toNat ≤ 57 := h2
    unfold isTrimChar
    generalize d.toNat = k at h1' h2'
    interval_cases k <;> decide
  · rintro rfl
    exact absurd hd (by decide)
  · rintro rfl
    exact absurd hd (by decide)
  · rintro rfl
    exact absurd hd (by decide)

theorem parseFloat_digit_head (s : String) (d : Char) (rest : List Char)
    (hs : s.data = d :: rest) (hd : d.isDigit = true) :
    parseFloat s = (parseUnsigned s.data).toBinary64 := by
  obtain ⟨hws, hminus, hplus, hI⟩ := digit_char_facts d hd
  have hdrop : s.data.dropWhile isTrimChar = d :: rest := by
    rw [hs, List.dropWhile_cons, hws]
    rfl
  have hinf : "Infinity".data.isPrefixOf (d :: rest) = false := by
    have : "Infinity".data = 'I' :: "nfinity".data := rfl
    rw [this, List.isPrefixOf]
    have hne : ('I' == d) = false := beq_false_of_ne (fun h => hI h.symm)
    rw [hne]
    rfl
  unfold parseFloat
  rw [hdrop]
  split
  · rename_i cs heq
    exact absurd (List.cons.inj heq).1 hminus
  · rename_i cs heq
    exact absurd (List.cons.inj heq).1 hplus
  · rw [hinf, hs]
    rfl

theorem parseFloat_minus_digit_head (s : String) (d : Char) (rest : List Char)
    (hs : s.data = d :: rest) (hd : d.isDigit = true) :
    parseFloat ("-" ++ s) = (parseUnsigned s.data).toBinary64.neg := by
  obtain ⟨_, _, _, hI⟩ := digit_char_facts d hd
  have hdata : ("-" ++ s).data = '-' :: d :: rest := by
    rw [String.data_append, hs]
    rfl
  have hinf : "Infinity".data.isPrefixOf (d :: rest) = false := by
    have : "Infinity".data = 'I' :: "nfinity".data := rfl
    rw [this, List.isPrefixOf]
    have hne : ('I' == d) = false := beq_false_of_ne (fun h => hI h.symm)
    rw [hne]
    rfl
  unfold parseFloat
  rw [hdata]
  have hdrop : ('-' :: d :: rest).dropWhile isTrimChar = '-' :: d :: rest := by
    rw [List.dropWhile_cons]
    rfl
  rw [hdrop]
  simp only [hinf, hs]
  rfl

/-- The text of a positive binary64 number reads back as the number, and with a minus sign in
front as its negation. -/
theorem parseFloat_positiveToString (y : ℚ) (hy : isBinary64 y) (hpos : 0 < y) :
    parseFloat (positiveToString y) = JSNum.fin y
      ∧ parseFloat ("-" ++ positiveToString y) = JSNum.fin (-y) := by
  have hspec := shortestSearch_spec y hy hpos 17 1
  have hs := shortestSearch_pos y hy hpos 17 1
  obtain ⟨hparse, d, rest, hdata, hd⟩ :=
    decimalToString_parse (shortestSearch y 17 1).1 hs (shortestSearch y 17 1).2
  unfold positiveToString
  constructor
  · rw [parseFloat_digit_head _ d rest hdata hd, hparse]
    exact hspec
  · rw [parseFloat_minus_digit_head _ d rest hdata hd, hparse]
    show (roundBinary64 _).neg = _
    rw [hspec]
    rfl

/-- Number::toString and parseFloat: the text of a binary64 number reads back as the number. -/
theorem parseFloat_numberToString (y : ℚ) (hy : isBinary64 y) :
    parseFloat (numberToString (JSNum.fin y)) = JSNum.fin y := by
  have hdef : numberToString (JSNum.fin y) = if y = 0 then "0"
      else if y < 0 then "-" ++ positiveToString (-y) else positiveToString y := rfl
  rw [hdef]
  by_cases h0 : y = 0
  · rw [if_pos h0, h0]
    decide!
  · rw [if_neg h0]
    by_cases hneg : y < 0
    · rw [if_pos hneg]
      have := (parseFloat_positiveToString (-y) (isBinary64_neg y hy) (by linarith)).2
      rwa [neg_neg] at this
    · rw [if_neg hneg]
      exact (parseFloat_positiveToString y hy
        (lt_of_le_of_ne (not_lt.mp hneg) (Ne.symm h0))).1

theorem JSNum.eq_fin_false (q : ℚ) (x : JSNum) (hne : JSNum.fin q ≠ x) :
    JSNum.eq (JSNum.fin q) x = false := by
  cases x <;> simp [JSNum.eq]
  exact fun hq => hne (by rw [hq])

theorem format_of_no_constant (h : Host) (q : ℚ)
    (hconst : ∀ c ∈ MATH_CONSTANTS, JSNum.fin q ≠ c.value ∧ JSNum.fin q ≠ c.value.neg) :
    formatMathematicalNumber h (JSNum.fin q) = fixed8ToString h (JSNum.fin q) := by
  have h1 : MATH_CONSTANTS.find? (fun k => JSNum.eq (JSNum.fin q) k.value) = none := by
    rw [List.find?_eq_none]
    intro c hc
    simp [JSNum.eq_fin_false q _ (hconst c hc).1]
  have h2 : MATH_CONSTANTS.find? (fun k => JSNum.eq (JSNum.fin q) (JSNum.neg k.value))
      = none := by
    rw [List.find?_eq_none]
    intro c hc
    simp [JSNum.eq_fin_false q _ (hconst c hc).2]
  simp only [formatMathematicalNumber, h1, h2]

theorem rounding_error (q : ℚ) :
    abs (((⌊|q| * 10 ^ 8 + 1 / 2⌋.toNat : ℕ) : ℚ) / 10 ^ 8 - |q|) ≤ 1 / (2 * 10 ^ 8) := by
  have hx : (0 : ℚ) ≤ |q| * 10 ^ 8 + 1 / 2 := by positivity
  have hfl : 0 ≤ ⌊|q| * 10 ^ 8 + 1 / 2⌋ := Int.floor_nonneg.mpr hx
  have hcast : ((⌊|q| * 10 ^ 8 + 1 / 2⌋.toNat : ℕ) : ℚ) = (⌊|q| * 10 ^ 8 + 1 / 2⌋ : ℚ) := by
    have := Int.toNat_of_nonneg hfl
    exact_mod_cast congrArg (fun z : ℤ => (z : ℚ)) this
  have hle := Int.floor_le (|q| * 10 ^ 8 + 1 / 2)
  have hlt := Int.lt_floor_add_one (|q| * 10 ^ 8 + 1 / 2)
  rw [hcast, abs_le]
  constructor
  · rw [le_sub_iff_add_le, le_div_iff₀ (by norm_num)]
    linarith
  · rw [sub_le_iff_le_add, div_le_iff₀ (by norm_num)]
    linarith

/-- The value of Number(value.toFixed(8)) below 1e21: a binary64 number within 1e-8 of the
value, when the value is a binary64 number. -/
theorem fixed8Value_spec (q : ℚ) (hq : isBinary64 q) (hsmall : |q| < 10 ^ 21) :
    ∃ y, fixed8Value q = JSNum.fin y ∧ isBinary64 y ∧ |y - q| ≤ 1 / 10 ^ 8 := by
  have hround := rounding_error q
  have key : ∀ z : ℚ, |z - q| ≤ 1 / (2 * 10 ^ 8) →
      ∃ y, roundBinary64 z = JSNum.fin y ∧ isBinary64 y ∧ |y - q| ≤ 1 / 10 ^ 8 := by
    intro z hz
    have hzabs : |z| < 2 ^ 1023 := by
      have h1 : |z| ≤ |z - q| + |q| := by
        have := abs_add (z - q) q
        rwa [sub_add_cancel] at this
      have h2 : (10 : ℚ) ^ 21 + 1 < 2 ^ 1023 := by norm_num
      have h3 : (1 : ℚ) / (2 * 10 ^ 8) < 1 := by norm_num
      linarith
    obtain ⟨y, hy⟩ := roundBinary64_finite z hzabs
    refine ⟨y, hy, roundBinary64_isBinary64 z y hy, ?_⟩
    have hnear := roundBinary64_nearest z y q hy hq
    have h1 : |y - q| ≤ |y - z| + |z - q| := by
      have := abs_add (y - z) (z - q)
      rwa [sub_add_sub_cancel] at this
    have h2 : |q - z| = |z - q| := abs_sub_comm q z
    have h3 : (1 : ℚ) / (2 * 10 ^ 8) + 1 / (2 * 10 ^ 8) = 1 / 10 ^ 8 := by norm_num
    linarith
  unfold fixed8Value
  by_cases hneg : q < 0
  · rw [if_pos hneg]
    apply key
    rw [abs_of_neg hneg] at hround
    rw [← abs_neg]
    have : -(-((⌊|q| * 10 ^ 8 + 1 / 2⌋.toNat : ℕ) : ℚ) / 10 ^ 8 - q)
        = ((⌊-q * 10 ^ 8 + 1 / 2⌋.toNat : ℕ) : ℚ) / 10 ^ 8 - -q := by
      rw [abs_of_neg hneg]
      ring
    rw [this]
    exact hround
  · rw [if_neg hneg]
    apply key
    rw [abs_of_nonneg (not_lt.mp hneg)] at hround ⊢
    exact hround

/-- Number::toString and the formatter on some binary64 numbers: 2^64 and 2^70 are printed
with the 17 digits that tell them from their neighbours, not with all their digits, and the
text of 2^70, which is in exponent form, reads back as 2^70. -/
theorem numberToString_examples :
    numberToString (JSNum.fin (2 ^ 64)) = "18446744073709552000"
    ∧ formatMathematicalNumber Host.exact (JSNum.fin (2 ^ 64)) = "18446744073709552000"
    ∧ formatMathematicalNumber Host.exact (JSNum.fin (2 ^ 70)) = "1.1805916207174113e+21"
    ∧ parseFloat "1.1805916207174113e+21" = JSNum.fin (2 ^ 70)
    ∧ numberToString (JSNum.fin (1 / 2 ^ 1074)) = "5e-324"
    ∧ numberToString (JSNum.fin (2 ^ 1024 - 2 ^ 971)) = "1.7976931348623157e+308"
    ∧ formatMathematicalNumber Host.exact (JSNum.fin (1 / 3)) = "0.33333333" := by
  decide!

/-- C17: for a finite value q, a binary64 number as every value of the program is, that is no
constant of the table and the negation of none, the text of formatMathematicalNumber parses
back, with parseFloat, to a number within 1e-8 of q. From 1e21 on the text is that of q itself
and reads back as q; below, it is the text of the binary64 number nearest to q rounded to 8
fractional digits. -/
theorem format_round_trip (h : Host) (q : ℚ) (hq : isBinary64 q)
    (hconst : ∀ c ∈ MATH_CONSTANTS, JSNum.fin q ≠ c.value ∧ JSNum.fin q ≠ c.value.neg) :
    ∃ r, parseFloat (formatMathematicalNumber h (JSNum.fin q)) = JSNum.fin r
      ∧ |r - q| ≤ 1 / 10 ^ 8 := by
  rw [format_of_no_constant h q hconst]
  by_cases hbig : (10 : ℚ) ^ 21 ≤ |q|
  · refine ⟨q, ?_, ?_⟩
    · simp only [fixed8ToString, hbig, if_true]
      exact parseFloat_numberToString q hq
    · rw [sub_self, abs_zero]
      positivity
  · obtain ⟨y, hy, hyb, hyq⟩ := fixed8Value_spec q hq (not_le.mp hbig)
    refine ⟨y, ?_, hyq⟩
    simp only [fixed8ToString, hbig, if_false]
    rw [hy]
    exact parseFloat_numberToString y hyb

/-- Witness of C17 on the binary64 number 0.30000000000000004, printed as "0.3", and on 2^70,
above 1e21, printed as "1.1805916207174113e+21". -/
theorem format_round_trip_witness :
    isBinary64 (5404319552844596 / 2 ^ 54)
      ∧ formatMathematicalNumber Host.exact (JSNum.fin (5404319552844596 / 2 ^ 54)) = "0.3"
      ∧ (∃ r, parseFloat (formatMathematicalNumber Host.exact
          (JSNum.fin (5404319552844596 / 2 ^ 54))) = JSNum.fin r
        ∧ |r - 5404319552844596 / 2 ^ 54| ≤ 1 / 10 ^ 8)
      ∧ isBinary64 (2 ^ 70)
      ∧ ∃ r, parseFloat (formatMathematicalNumber Host.exact (JSNum.fin (2 ^ 70))) = JSNum.fin r
        ∧ |r - 2 ^ 70| ≤ 1 / 10 ^ 8 :=
  ⟨by decide!, by decide!,
    format_round_trip Host.exact (5404319552844596 / 2 ^ 54) (by decide!) (by decide!),
    by decide!, format_round_trip Host.exact (2 ^ 70) (by decide!) (by decide!)⟩

end RpnCalc
